import Mathlib

/-!
The fzf matcher (src/matcher.go): a shallow embedding and its properties.

The embedding follows `src/matcher.go`:

* `Matcher.sliceChunks`  : lines 99-117
* `Matcher.scan`         : lines 124-201 (workers: 141-164, coordinator: 172-193,
                           collection of the workers' results: 195-200)
* `Matcher.Loop`         : lines 51-97 (handler of `reqBox.Wait`: 57-67, body: 69-95)
* `Matcher.Reset`        : lines 204-214

Go pointers to immutable objects are embedded as the object itself; a `*Merger`
additionally carries the address of the allocation, so that "the same object"
can be told apart from "an equal object".  Goroutine interleaving is embedded
as an explicit `Schedule`: the order in which the per-chunk counts reach the
coordinator on `countChan`, what the coordinator observes at each of its
checks (request bus, clock), and the order in which the workers' results reach
it on `resultChan`.
-/

namespace Fzf

/-! ## Data model -/

/-- Modelled from the spec: Item (item.go is not under src/).  Spec section 3 and 4.2:
an identity (`index`, the insertion order into the chunk store), the text, and the
score derived by the pattern. -/
structure Item where
  index : Nat
  text : List Char
  score : Int
deriving DecidableEq, Repr

/-- Chunk is `[]*Item` in the source (`matches = *chunk`, matcher.go line 149). -/
abbrev Chunk := List Item

/-- Modelled from the spec: CountItems (chunklist.go is not under src/).  Spec 4.1:
`count()` is the total number of items of the store. -/
def CountItems (cs : List Chunk) : Nat :=
  (cs.map List.length).sum

/-- Modelled from the spec: the `Less` of ByRelevance (item.go is not under src/).
Spec 4.2: ranking is by the tuple (score DESC, length ASC, index ASC). -/
def ByRelevance.Less (a b : Item) : Prop :=
  b.score < a.score ∨
    (a.score = b.score ∧
      (a.text.length < b.text.length ∨
        (a.text.length = b.text.length ∧ a.index < b.index)))

instance ByRelevance.decLess : DecidableRel ByRelevance.Less := fun a b => by
  unfold ByRelevance.Less
  infer_instance

/-- The order `sort.Sort` establishes: no later element is `Less` than an earlier one. -/
def ByRelevance.NotAfter (a b : Item) : Prop := ¬ ByRelevance.Less b a

instance ByRelevance.decNotAfter : DecidableRel ByRelevance.NotAfter := fun a b => by
  unfold ByRelevance.NotAfter
  infer_instance

/-- The call `sort.Sort(ByRelevance(sliceMatches))` (matcher.go line 160).  Go's library sort
rearranges the slice into an order in which no element is `Less` than one before it;
an insertion sort stands for it. -/
def sortByRelevance (l : List Item) : List Item :=
  l.insertionSort ByRelevance.NotAfter

/-- Modelled from the spec: Pattern (pattern.go is not under src/).  The three methods
matcher.go calls on a pattern are the fields: `AsString` (the cache key, spec 4.2 item 4),
`IsEmpty` and `Match` (spec 4.2, evaluation against the items of a chunk). -/
structure Pattern where
  AsString : String
  IsEmpty : Bool
  Match : Chunk → List Item

/-- MatchRequest, matcher.go lines 14-17. -/
structure MatchRequest where
  chunks : List Chunk
  pattern : Pattern

/-- Modelled from the spec: Merger (merger.go is not under src/).  Spec 3: a collection of
partial results and a flag indicating whether ranking is active. -/
structure Merger where
  lists : List (List Item)
  sorted : Bool
deriving DecidableEq, Repr

/-- Modelled from the spec: NewMerger (merger.go is not under src/).  Spec 4.3: constructed
from the partial results and a `ranked` flag. -/
def NewMerger (lists : List (List Item)) (sorted : Bool) : Merger :=
  { lists := lists, sorted := sorted }

/-- Modelled from the spec: Merger.Length (merger.go is not under src/).  Spec 3: the total
count is the sum of the partition lengths. -/
def Merger.Length (mg : Merger) : Nat :=
  (mg.lists.map List.length).sum

/-- Modelled from the spec: Merger.Get (merger.go is not under src/).  Spec 4.3 and 8.1: without
ranking the i-th item in concatenation order (partition 0 first), with ranking the i-th
item of the sorted concatenation. -/
def Merger.Get (mg : Merger) (idx : Nat) : Option Item :=
  if mg.sorted then (sortByRelevance mg.lists.flatten)[idx]? else mg.lists.flatten[idx]?

/-- A non-nil `*Merger`: the address of the allocation and the object stored there.
A nil `*Merger` is `none : Option MergerPtr`. -/
structure MergerPtr where
  addr : Nat
  obj : Merger
deriving DecidableEq, Repr

/-- Modelled from the spec: EmptyMerger (merger.go is not under src/).  Spec 4.3: the empty merger
(no partitions) is a reusable singleton; it lives at address 0, every other merger is
allocated at an address handed out by the caller. -/
def EmptyMerger : MergerPtr :=
  { addr := 0, obj := NewMerger [] false }

/-! ## Event bus -/

/-- The type `util.EventType` is an integer type. -/
abbrev EventType := Nat

/-- Request kinds, matcher.go lines 29-32. -/
def reqRetry : EventType := 0

/-- Request kinds, matcher.go lines 29-32. -/
def reqReset : EventType := 1

/-- Output event kinds, constants.go lines 11-18. -/
def EvtSearchProgress : EventType := 3

/-- Output event kinds, constants.go lines 11-18. -/
def EvtSearchFin : EventType := 4

/-- Modelled from the spec: EventBox (util/eventbox.go is not under src/).  Spec 3: a mapping
from event kind to the latest payload of that kind; it is kept as an association list
with one entry per kind. -/
structure EventBox (α : Type) where
  events : List (EventType × α)

/-- Modelled from the spec: EventBox.Set (util/eventbox.go is not under src/).  Spec 3 and 4.4:
writes the payload under `kind`, overwriting any pending payload of that kind. -/
def EventBox.Set {α : Type} (b : EventBox α) (kind : EventType) (payload : α) : EventBox α :=
  { events := b.events.filter (fun e => decide (e.1 ≠ kind)) ++ [(kind, payload)] }

/-- Modelled from the spec: EventBox.Peak (util/eventbox.go is not under src/).  Spec 4.4:
reports whether a given kind is present, without clearing. -/
def EventBox.Peak {α : Type} (b : EventBox α) (kind : EventType) : Bool :=
  b.events.any (fun e => decide (e.1 = kind))

/-- What is set on the output bus `m.eventBox`: the progress fraction `count / numChunks`
(kept as the two integers) or the final merger. -/
inductive Payload where
  | progress (count numChunks : Nat)
  | merger (mg : Option MergerPtr)
deriving DecidableEq, Repr

/-- One call of `m.eventBox.Set`. -/
abbrev OutEvent := EventType × Payload

/-! ## Matcher -/

/-- Matcher, matcher.go lines 20-27.  The two buses and the merger cache are the mutable
part and are passed explicitly (`LoopState`, `EventBox`). -/
structure Matcher where
  patternBuilder : List Char → Pattern
  sort : Bool
  partitions : Nat

/-- The slice expression `chunks[start:stop]`. -/
def goSlice {α : Type} (xs : List α) (start stop : Nat) : List α :=
  (xs.drop start).take (stop - start)

/-- Matcher.sliceChunks, matcher.go lines 99-117.  (`m.partitions` is `runtime.NumCPU()`,
at least 1; with 0 the Go division would fault.) -/
def Matcher.sliceChunks (m : Matcher) (chunks : List Chunk) : List (List Chunk) :=
  let perSlice := chunks.length / m.partitions
  if perSlice = 0 then
    [chunks]
  else
    (List.range m.partitions).map fun i =>
      let start := i * perSlice
      let stop := if i = m.partitions - 1 then chunks.length else start + perSlice
      goSlice chunks start stop

/-- The matches of one chunk, matcher.go lines 147-152. -/
def matchesOf (request : MatchRequest) (chunk : Chunk) : List Item :=
  if request.pattern.IsEmpty then chunk else request.pattern.Match chunk

/-- What a worker sends on `resultChan`, matcher.go lines 119-122. -/
structure partialResult where
  index : Nat
  «matches» : List Item
deriving DecidableEq, Repr

/-- The body of a worker goroutine that is not cancelled, matcher.go lines 145-162: the
matches of the chunks of its slice are appended in chunk order, then sorted when the
pattern is not empty and `m.sort` is set. -/
def Matcher.worker (m : Matcher) (request : MatchRequest) (chunks : List Chunk) : List Item :=
  let sliceMatches := chunks.foldl (fun acc chunk => acc ++ matchesOf request chunk) []
  if !request.pattern.IsEmpty && m.sort then sortByRelevance sliceMatches else sliceMatches

/-- One value received from `countChan`, with what the coordinator observes while it handles
it: `chunk` is the position (in `request.chunks`) of the chunk whose match count arrives,
`reqBox` is the content of the request bus at the `Peak` of line 186, `late` tells whether
`time.Now().Sub(startedAt) > progressMinDuration` at line 190. -/
structure Arrival where
  chunk : Nat
  reqBox : EventBox MatchRequest
  late : Bool

/-- The interleaving of one scan: the values received from `countChan` in order, and the
partition indices of the results received from `resultChan` in order. -/
structure Schedule where
  arrivals : List Arrival
  results : List Nat

/-- The coordinator loop of scan, matcher.go lines 172-193.  The result is `none` when the
loop waits on `countChan` for ever, `some (true, _)` when it returns through `wait()`,
`some (false, _)` when it leaves through `break`; the list is what was set on
`m.eventBox` meanwhile.  `count` and `matchCount` count chunks and items held in memory,
far below the range of a 64-bit `int`, and are natural numbers; `limit` is any `int`. -/
def coordinate (request : MatchRequest) (limit : Int) (numChunks : Nat) :
    List Arrival → Nat → Nat → List OutEvent → Option (Bool × List OutEvent)
  | [], _, _, _ => none
  | a :: rest, count, matchCount, out =>
    let count := count + 1
    let matchCount := matchCount + (matchesOf request (request.chunks.getD a.chunk [])).length
    if limit > 0 ∧ (matchCount : Int) > limit then
      some (true, out)
    else if count = numChunks then
      some (false, out)
    else if !request.pattern.IsEmpty && a.reqBox.Peak reqReset then
      some (true, out)
    else
      coordinate request limit numChunks rest count matchCount
        (if a.late then out ++ [(EvtSearchProgress, Payload.progress count numChunks)] else out)

/-- The loop that fills `partialResults`, matcher.go lines 195-199. -/
def collectResults (numSlices : Nat) (received : List partialResult) : List (List Item) :=
  received.foldl (fun acc pr => acc.set pr.index pr.«matches») (List.replicate numSlices [])

/-- What scan returns, with the events it set on `m.eventBox`. -/
structure ScanResult where
  merger : Option MergerPtr
  cancelled : Bool
  events : List OutEvent
deriving DecidableEq, Repr

/-- Matcher.scan, matcher.go lines 124-201.  `addr` is the address at which `NewMerger`
allocates.  The result is `none` when scan never returns (the schedule delivers fewer
values than the coordinator waits for). -/
def Matcher.scan (m : Matcher) (request : MatchRequest) (limit : Int) (sched : Schedule)
    (addr : Nat) : Option ScanResult :=
  let numChunks := request.chunks.length
  if numChunks = 0 then
    some { merger := some EmptyMerger, cancelled := false, events := [] }
  else
    let empty := request.pattern.IsEmpty
    let slices := m.sliceChunks request.chunks
    let numSlices := slices.length
    match coordinate request limit numChunks sched.arrivals 0 0 [] with
    | none => none
    | some (true, out) => some { merger := none, cancelled := true, events := out }
    | some (false, out) =>
      if sched.results.length < numSlices then
        none
      else
        let received := (sched.results.take numSlices).map fun idx =>
          partialResult.mk idx (m.worker request (slices.getD idx []))
        let partialResults := collectResults numSlices received
        some { merger := some { addr := addr, obj := NewMerger partialResults (!empty && m.sort) },
               cancelled := false, events := out }

/-- Matcher.Reset, matcher.go lines 204-214, acting on the request bus. -/
def Matcher.Reset (m : Matcher) (reqBox : EventBox MatchRequest) (chunks : List Chunk)
    (patternRunes : List Char) (cancel : Bool) : EventBox MatchRequest :=
  let pattern := m.patternBuilder patternRunes
  let event := if cancel then reqReset else reqRetry
  reqBox.Set event { chunks := chunks, pattern := pattern }

/-- One call of Reset: the arguments `chunks`, `patternRunes`, `cancel`. -/
structure ResetCall where
  chunks : List Chunk
  patternRunes : List Char
  cancel : Bool

/-- The request bus after a sequence of Reset calls made on an empty bus. -/
def Matcher.resets (m : Matcher) (calls : List ResetCall) : EventBox MatchRequest :=
  calls.foldl (fun b c => m.Reset b c.chunks c.patternRunes c.cancel) { events := [] }

/-- The handler Loop passes to `m.reqBox.Wait`, matcher.go lines 58-65, run on the drained
mapping `events` listed in the order the `range` visits it: every visited value is
assigned to `request`.  (`reqBox` is private to the matcher and only Reset sets it, so
every value is a MatchRequest; `none` is the unassigned `request`.) -/
def keepRequest (events : List (EventType × MatchRequest)) : Option MatchRequest :=
  events.foldl (fun _ e => some e.2) none

/-- The variables that live across iterations of Loop: `prevCount`, `m.mergerCache`
(a Go map from the pattern string to a possibly nil `*Merger`) and the next free
address of the allocator. -/
structure LoopState where
  prevCount : Nat
  mergerCache : String → Option (Option MergerPtr)
  nextAddr : Nat

/-- The state in which Loop starts, matcher.go lines 47 and 52.  Address 0 holds EmptyMerger. -/
def LoopState.init : LoopState :=
  { prevCount := 0, mergerCache := fun _ => none, nextAddr := 1 }

/-- The statement `m.mergerCache[patternString] = merger`. -/
def cacheStore (cache : String → Option (Option MergerPtr)) (key : String)
    (mg : Option MergerPtr) : String → Option (Option MergerPtr) :=
  fun k => if k = key then some mg else cache k

/-- One pass through the body of the `for` of Loop: the request it handled, the result of
the call of scan when there was one, the final values of `merger` and `cancelled`, what it
set on `m.eventBox`, and the state it leaves. -/
structure Iteration where
  request : MatchRequest
  scanned : Option ScanResult
  merger : Option MergerPtr
  cancelled : Bool
  events : List OutEvent
  state : LoopState

/-- The body of the `for` of Loop after the wait, matcher.go lines 69-95.  `none` when the
call of scan never returns. -/
def Matcher.loopBody (m : Matcher) (st : LoopState) (request : MatchRequest)
    (sched : Schedule) : Option Iteration :=
  let patternString := request.pattern.AsString
  let count := CountItems request.chunks
  -- lines 75-86
  let found : Option (Option MergerPtr) :=
    if count = st.prevCount then st.mergerCache patternString else none
  let cache : String → Option (Option MergerPtr) :=
    if count = st.prevCount then st.mergerCache else fun _ => none
  let prevCount := count
  match found with
  | some cached =>
    -- foundCache: scan is skipped, cancelled stays false
    some { request := request, scanned := none, merger := cached, cancelled := false,
           events := [(EvtSearchFin, Payload.merger cached)],
           state := { prevCount := prevCount, mergerCache := cacheStore cache patternString cached,
                      nextAddr := st.nextAddr } }
  | none =>
    match m.scan request 0 sched st.nextAddr with
    | none => none
    | some r =>
      if r.cancelled then
        some { request := request, scanned := some r, merger := r.merger, cancelled := true,
               events := r.events,
               state := { prevCount := prevCount, mergerCache := cache,
                          nextAddr := st.nextAddr + 1 } }
      else
        some { request := request, scanned := some r, merger := r.merger, cancelled := false,
               events := r.events ++ [(EvtSearchFin, Payload.merger r.merger)],
               state := { prevCount := prevCount,
                          mergerCache := cacheStore cache patternString r.merger,
                          nextAddr := st.nextAddr + 1 } }

/-- One wake-up of Loop: the drained mapping of the request bus in the order the handler
visits it, and the interleaving of the scan that may follow. -/
structure Wake where
  events : List (EventType × MatchRequest)
  sched : Schedule

/-- One iteration of the `for` of Loop, matcher.go lines 55-95.  `none` when the iteration
does not complete (scan never returns, or nothing was drained: Wait hands over a
non-empty mapping only). -/
def Matcher.loopIter (m : Matcher) (st : LoopState) (w : Wake) : Option Iteration :=
  match keepRequest w.events with
  | none => none
  | some request => m.loopBody st request w.sched

/-- Matcher.Loop, matcher.go lines 51-97, run from state `st` for the given wake-ups:
the iterations in order, or `none` when one of them does not complete. -/
def Matcher.loopFrom (m : Matcher) : LoopState → List Wake → Option (List Iteration)
  | _, [] => some []
  | st, w :: ws =>
    match m.loopIter st w with
    | none => none
    | some it =>
      match Matcher.loopFrom m it.state ws with
      | none => none
      | some its => some (it :: its)

/-- Matcher.Loop, matcher.go lines 51-97, from its initial state. -/
def Matcher.Loop (m : Matcher) (ws : List Wake) : Option (List Iteration) :=
  m.loopFrom LoopState.init ws

/-- The state after a list of iterations that started in `st`. -/
def lastState (st : LoopState) : List Iteration → LoopState
  | [] => st
  | it :: its => lastState it.state its

/-- The states Loop can be in at the top of its `for`: those left by some run of
iterations from the initial state. -/
def Matcher.Reachable (m : Matcher) (st : LoopState) : Prop :=
  ∃ ws its, m.Loop ws = some its ∧ lastState LoopState.init its = st

/-! ## Vocabulary of the statements -/

/-- The match count that an arrival carries: `len(matches)` of its chunk (line 157). -/
def arrivalCount (request : MatchRequest) (a : Arrival) : Nat :=
  (matchesOf request (request.chunks.getD a.chunk [])).length

/-- Whether a reqReset is on the request bus at the check that follows an arrival. -/
def Arrival.resetPending (a : Arrival) : Bool :=
  a.reqBox.Peak reqReset

/-- The total number of matches over all chunks of a request. -/
def totalMatches (request : MatchRequest) : Nat :=
  ((request.chunks.map (matchesOf request)).map List.length).sum

/-- The interleavings of a scan in which no worker is cancelled: every chunk's count is
received once, in any order, and every worker's result is received once, in any order. -/
def Schedule.Valid (sched : Schedule) (m : Matcher) (request : MatchRequest) : Prop :=
  (sched.arrivals.map Arrival.chunk).Perm (List.range request.chunks.length) ∧
    sched.results.Perm (List.range (m.sliceChunks request.chunks).length)

instance Schedule.decValid (sched : Schedule) (m : Matcher) (request : MatchRequest) :
    Decidable (sched.Valid m request) := by
  unfold Schedule.Valid
  infer_instance

/-- No reqReset is on the request bus at any check of the coordinator. -/
def Schedule.Quiet (sched : Schedule) : Prop :=
  ∀ a ∈ sched.arrivals, a.reqBox.Peak reqReset = false

instance Schedule.decQuiet (sched : Schedule) : Decidable sched.Quiet := by
  unfold Schedule.Quiet
  infer_instance

/-- Every entry of the merger cache of `st`, keyed by a pattern string `s`, is a non-nil
merger that an uncancelled call of scan returned in one of the iterations `its`, for a
request whose pattern string is `s` and whose item count is the `prevCount` of `st`. -/
def CacheJustified (m : Matcher) (its : List Iteration) (st : LoopState) : Prop :=
  ∀ s mg, st.mergerCache s = some mg →
    ∃ it ∈ its, ∃ r sched addr ptr,
      it.scanned = some r ∧ m.scan it.request 0 sched addr = some r ∧
      r.cancelled = false ∧ r.merger = mg ∧ mg = some ptr ∧
      it.request.pattern.AsString = s ∧ CountItems it.request.chunks = st.prevCount

/-- The request most recently stored under `kind` by a sequence of Reset calls: the one of
the last call whose event (`reqReset` for cancel, `reqRetry` otherwise) is `kind`. -/
def Matcher.lastStored (m : Matcher) (calls : List ResetCall) (kind : EventType) :
    Option MatchRequest :=
  ((calls.filter
      (fun c => decide ((if c.cancel then reqReset else reqRetry) = kind))).getLast?).map
    (fun c => { chunks := c.chunks, pattern := m.patternBuilder c.patternRunes })

/-- The calls of `m.eventBox.Set(EvtSearchFin, _)` among a list of output events. -/
def finEvents (evs : List OutEvent) : List OutEvent :=
  evs.filter (fun e => decide (e.1 = EvtSearchFin))

/-! ## Concrete inputs -/

/-- The candidate line "aaa" inserted at position `i`. -/
def exItem (i : Nat) : Item :=
  { index := i, text := ['a', 'a', 'a'], score := 0 }

/-- An empty pattern. -/
def exEmptyPattern : Pattern :=
  { AsString := "", IsEmpty := true, Match := fun chunk => chunk }

/-- A non-empty pattern: it matches the items at even positions and scores them by position. -/
def exPattern : Pattern :=
  { AsString := "a", IsEmpty := false,
    Match := fun chunk =>
      (chunk.filter (fun it => it.index % 2 == 0)).map
        (fun it => { it with score := (it.index : Int) }) }

/-- A matcher with two partitions and sorting on. -/
def exMatcher : Matcher :=
  { patternBuilder := fun runes => if runes.isEmpty then exEmptyPattern else exPattern,
    sort := true, partitions := 2 }

/-- Two chunks of one item each. -/
def exChunks : List Chunk :=
  [[exItem 0], [exItem 1]]

/-- Five chunks of two items each. -/
def exChunks5 : List Chunk :=
  (List.range 5).map (fun c => [exItem (2 * c), exItem (2 * c + 1)])

/-- A request bus on which a reqReset is pending. -/
def exPending : EventBox MatchRequest :=
  exMatcher.Reset { events := [] } exChunks ['b'] true

/-- An interleaving for two chunks in two partitions, with a reqReset pending at each check
of the coordinator. -/
def exSchedReset : Schedule :=
  { arrivals := [{ chunk := 0, reqBox := exPending, late := false },
                 { chunk := 1, reqBox := exPending, late := false }],
    results := [0, 1] }

/-- An interleaving for two chunks in two partitions, the second worker finishing first,
the clock past the progress threshold, nothing on the request bus. -/
def exSched : Schedule :=
  { arrivals := [{ chunk := 1, reqBox := { events := [] }, late := true },
                 { chunk := 0, reqBox := { events := [] }, late := true }],
    results := [1, 0] }

/-- The request for `exChunks` with the empty pattern. -/
def exEmptyRequest : MatchRequest :=
  { chunks := exChunks, pattern := exEmptyPattern }

/-- The request for `exChunks` with the non-empty pattern. -/
def exRequest : MatchRequest :=
  { chunks := exChunks, pattern := exPattern }

/-- Scenario S6 of the spec: 1,000 lines "aaa" in ten chunks, the empty pattern. -/
def exRequest1000 : MatchRequest :=
  { chunks := (List.range 10).map (fun c => (List.range 100).map (fun i => exItem (100 * c + i))),
    pattern := exEmptyPattern }

/-- An interleaving for the ten chunks of `exRequest1000` in two partitions. -/
def exSched1000 : Schedule :=
  { arrivals := (List.range 10).map
      (fun c => { chunk := c, reqBox := { events := [] }, late := false }),
    results := [0, 1] }

/-- Two Reset calls: the first cancels (`reqReset`), the last one does not (`reqRetry`). -/
def exResetCalls : List ResetCall :=
  [{ chunks := [[exItem 0]], patternRunes := ['a'], cancel := true },
   { chunks := exChunks, patternRunes := ['a'], cancel := false }]

/-- The mapping left by `exResetCalls`, visited in the order of the event kinds. -/
def exDrained : List (EventType × MatchRequest) :=
  [(reqRetry, { chunks := exChunks, pattern := exPattern }),
   (reqReset, { chunks := [[exItem 0]], pattern := exPattern })]

/-- Three Reset calls: two that cancel (`reqReset`), with one and then two chunks, and a
last one that does not (`reqRetry`), with five chunks. -/
def exResetCalls3 : List ResetCall :=
  [{ chunks := [[exItem 0]], patternRunes := ['a'], cancel := true },
   { chunks := exChunks, patternRunes := ['a'], cancel := true },
   { chunks := exChunks5, patternRunes := ['a'], cancel := false }]

/-- The mapping left by `exResetCalls3`, visited in the order of the event kinds. -/
def exDrained3 : List (EventType × MatchRequest) :=
  [(reqRetry, { chunks := exChunks5, pattern := exPattern }),
   (reqReset, { chunks := exChunks, pattern := exPattern })]

/-- Two wake-ups of Loop, both for `exRequest`. -/
def exWakes : List Wake :=
  [{ events := [(reqReset, exRequest)], sched := exSched },
   { events := [(reqRetry, exRequest)], sched := exSched }]

/-- The iteration that stands for "no iteration" where a total value is needed. -/
def exNoIteration : Iteration :=
  { request := exRequest, scanned := none, merger := none, cancelled := true, events := [],
    state := LoopState.init }

/-- The iterations of Loop on `exWakes`. -/
def exRun : List Iteration :=
  (exMatcher.Loop exWakes).getD []

/-- The first iteration of Loop on `exRequest`. -/
def exFirst : Iteration :=
  (exMatcher.loopBody LoopState.init exRequest exSched).getD exNoIteration

/-- The result of `scan` on `exRequest`, called by the first iteration of Loop. -/
def exScannedFirst : ScanResult :=
  (exMatcher.scan exRequest 0 exSched LoopState.init.nextAddr).getD
    { merger := none, cancelled := true, events := [] }

/-- The request for `exChunks5` with the non-empty pattern. -/
def exRequest5 : MatchRequest :=
  { chunks := exChunks5, pattern := exPattern }

/-- An interleaving for the five chunks of `exRequest5` in two partitions (chunks 0-1 and
2-4), the workers alternating and the second one finishing first. -/
def exSched5 : Schedule :=
  { arrivals := [{ chunk := 2, reqBox := { events := [] }, late := false },
                 { chunk := 0, reqBox := { events := [] }, late := false },
                 { chunk := 3, reqBox := { events := [] }, late := true },
                 { chunk := 1, reqBox := { events := [] }, late := false },
                 { chunk := 4, reqBox := { events := [] }, late := true }],
    results := [1, 0] }

/-- The result of `scan` on `exRequest5`. -/
def exScanned : ScanResult :=
  (exMatcher.scan exRequest5 0 exSched5 1).getD { merger := none, cancelled := true, events := [] }

/-! ## Slicing -/

theorem goSlice_step {α : Type} (xs : List α) (a q : Nat) :
    goSlice xs a (a + q) = (xs.drop a).take q := by
  simp [goSlice]

theorem flatten_slices_take {α : Type} (xs : List α) (q : Nat) :
    ∀ k, ((List.range k).map (fun i => (xs.drop (i * q)).take q)).flatten = xs.take (k * q) := by
  intro k
  induction k with
  | zero => simp
  | succ k ih =>
    rw [List.range_succ, List.map_append, List.flatten_append, ih]
    simp only [List.map_cons, List.map_nil, List.flatten_cons, List.flatten_nil, List.append_nil]
    rw [Nat.succ_mul, List.take_add]

theorem perSlice_eq_zero_iff (n p : Nat) (hp : 1 ≤ p) : n / p = 0 ↔ n < p := by
  constructor
  · intro h
    by_contra hc
    have : 1 ≤ n / p := (Nat.one_le_div_iff (by omega)).mpr (by omega)
    omega
  · intro h
    exact Nat.div_eq_of_lt h

theorem sliceChunks_of_lt (m : Matcher) (chunks : List Chunk) (h : chunks.length / m.partitions = 0) :
    m.sliceChunks chunks = [chunks] := by
  simp [Matcher.sliceChunks, h]

theorem sliceChunks_of_ge (m : Matcher) (chunks : List Chunk) (h : chunks.length / m.partitions ≠ 0) :
    m.sliceChunks chunks =
      ((List.range (m.partitions - 1)).map
          (fun i => (chunks.drop (i * (chunks.length / m.partitions))).take
            (chunks.length / m.partitions))) ++
        [chunks.drop ((m.partitions - 1) * (chunks.length / m.partitions))] := by
  have hp : 1 ≤ m.partitions := by
    by_contra hc
    have : m.partitions = 0 := by omega
    simp [this] at h
  simp only [Matcher.sliceChunks, h, if_false]
  obtain ⟨p, hpp⟩ : ∃ p, m.partitions = p + 1 := ⟨m.partitions - 1, by omega⟩
  rw [hpp, List.range_succ, List.map_append]
  simp only [Nat.add_sub_cancel, List.map_cons, List.map_nil, if_true]
  congr 1
  · apply List.map_congr_left
    intro i hi
    have : i ≠ p := by
      have := List.mem_range.mp hi
      omega
    simp [this, goSlice]
  · simp only [goSlice]
    rw [List.take_of_length_le]
    simp



theorem flatten_offsets {α : Type} :
    ∀ (L : List (List α)) (i : Nat) (h : i < L.length),
      L[i] = goSlice L.flatten ((L.take i).map List.length).sum
        (((L.take i).map List.length).sum + L[i].length) := by
  intro L
  induction L with
  | nil => intro i h; simp at h
  | cons a L ih =>
    intro i h
    cases i with
    | zero => simp [goSlice]
    | succ i =>
      have h2 : i < L.length := by simpa using h
      have := ih i h2
      simp only [List.getElem_cons_succ, List.take_succ_cons, List.map_cons, List.sum_cons,
        List.flatten_cons]
      rw [goSlice_step] at this ⊢
      rw [this]
      simp [List.drop_append]

/-- Claim C8, as amended: for every chunk list and every partition count of at least 1,
sliceChunks returns `m.partitions` slices when there are at least that many chunks, and
a single slice (the whole list, "No need to parallelize") when there are fewer. -/
theorem sliceChunks_length (m : Matcher) (chunks : List Chunk) (hp : 1 ≤ m.partitions) :
    (m.sliceChunks chunks).length =
      if chunks.length < m.partitions then 1 else m.partitions := by
  by_cases h : chunks.length / m.partitions = 0
  · rw [sliceChunks_of_lt m chunks h]
    have := (perSlice_eq_zero_iff _ _ hp).mp h
    simp [this]
  · rw [sliceChunks_of_ge m chunks h]
    have : ¬ chunks.length < m.partitions := fun hc => h ((perSlice_eq_zero_iff _ _ hp).mpr hc)
    simp [this]
    omega

theorem sliceChunks_flatten (m : Matcher) (chunks : List Chunk) :
    (m.sliceChunks chunks).flatten = chunks := by
  by_cases h : chunks.length / m.partitions = 0
  · rw [sliceChunks_of_lt m chunks h]; simp
  · rw [sliceChunks_of_ge m chunks h, List.flatten_append, flatten_slices_take]
    simp

theorem sliceChunks_ne_nil (m : Matcher) (chunks : List Chunk) (hne : chunks ≠ []) :
    ∀ s ∈ m.sliceChunks chunks, s ≠ [] := by
  by_cases h : chunks.length / m.partitions = 0
  · rw [sliceChunks_of_lt m chunks h]; simpa using hne
  · rw [sliceChunks_of_ge m chunks h]
    have hq : 1 ≤ chunks.length / m.partitions := Nat.pos_of_ne_zero h
    have hle : m.partitions * (chunks.length / m.partitions) ≤ chunks.length :=
      Nat.mul_div_le _ _
    have hp : 1 ≤ m.partitions := by
      by_contra hc
      have : m.partitions = 0 := by omega
      simp [this] at h
    generalize chunks.length / m.partitions = q at hq hle
    generalize m.partitions = p1 at hp hle
    obtain ⟨p, rfl⟩ : ∃ p, p1 = p + 1 := ⟨p1 - 1, by omega⟩
    intro s hs
    simp only [Nat.add_sub_cancel, List.mem_append, List.mem_map, List.mem_range,
      List.mem_singleton] at hs
    have key : ∀ i, i ≤ p → i * q + q ≤ chunks.length := by
      intro i hi
      have : (i + 1) * q ≤ (p + 1) * q := Nat.mul_le_mul_right _ (by omega)
      rw [Nat.succ_mul] at this
      omega
    rcases hs with ⟨i, hi, rfl⟩ | rfl
    · intro hc
      have hl := congrArg List.length hc
      simp only [List.length_take, List.length_drop, List.length_nil] at hl
      have := key i (by omega)
      omega
    · intro hc
      have hl := congrArg List.length hc
      simp only [List.length_drop, List.length_nil] at hl
      have := key p (le_refl _)
      omega

/-- Claim C9: for every chunk list and every partition count of at least 1, the slices
sliceChunks returns concatenate, in slice order, to the input list; slice `i` is the
sub-range of the input that starts where slice `i - 1` ended; and when the input is not
empty no slice is empty. -/
theorem sliceChunks_contiguous (m : Matcher) (chunks : List Chunk) (_hp : 1 ≤ m.partitions) :
    (m.sliceChunks chunks).flatten = chunks ∧
    (∀ (i : Nat) (h : i < (m.sliceChunks chunks).length),
      (m.sliceChunks chunks)[i] =
        goSlice chunks (((m.sliceChunks chunks).take i).map List.length).sum
          ((((m.sliceChunks chunks).take i).map List.length).sum +
            (m.sliceChunks chunks)[i].length)) ∧
    (chunks ≠ [] → ∀ s ∈ m.sliceChunks chunks, s ≠ []) := by
  refine ⟨sliceChunks_flatten m chunks, ?_, sliceChunks_ne_nil m chunks⟩
  intro i h
  have := flatten_offsets (m.sliceChunks chunks) i h
  rw [sliceChunks_flatten] at this
  exact this

/-! ## The coordinator of scan -/

theorem coordinate_cons (request : MatchRequest) (limit : Int) (numChunks : Nat)
    (a : Arrival) (rest : List Arrival) (count matchCount : Nat) (out : List OutEvent) :
    coordinate request limit numChunks (a :: rest) count matchCount out =
      if limit > 0 ∧ ((matchCount + arrivalCount request a : Nat) : Int) > limit then
        some (true, out)
      else if count + 1 = numChunks then
        some (false, out)
      else if (!request.pattern.IsEmpty && a.reqBox.Peak reqReset) = true then
        some (true, out)
      else
        coordinate request limit numChunks rest (count + 1) (matchCount + arrivalCount request a)
          (if a.late then out ++ [(EvtSearchProgress, Payload.progress (count + 1) numChunks)]
           else out) := by
  rw [coordinate]
  rfl

theorem coordinate_reset (request : MatchRequest) (limit : Int) (numChunks : Nat)
    (hne : request.pattern.IsEmpty = false) :
    ∀ (arrivals : List Arrival) (k count matchCount : Nat) (out : List OutEvent) (a : Arrival),
      arrivals[k]? = some a → a.reqBox.Peak reqReset = true → count + k + 1 < numChunks →
      ∃ evs, coordinate request limit numChunks arrivals count matchCount out = some (true, evs) := by
  intro arrivals
  induction arrivals with
  | nil => intro k count mc out a h; simp at h
  | cons b rest ih =>
    intro k count mc out a h hpeak hlt
    rw [coordinate_cons]
    by_cases h1 : limit > 0 ∧ ((mc + arrivalCount request b : Nat) : Int) > limit
    · rw [if_pos h1]; exact ⟨_, rfl⟩
    rw [if_neg h1, if_neg (by omega)]
    by_cases h3 : (!request.pattern.IsEmpty && b.reqBox.Peak reqReset) = true
    · rw [if_pos h3]; exact ⟨_, rfl⟩
    rw [if_neg h3]
    cases k with
    | zero =>
      simp only [List.getElem?_cons_zero, Option.some.injEq] at h
      subst h
      simp [hne, hpeak] at h3
    | succ k =>
      simp only [List.getElem?_cons_succ] at h
      exact ih k (count + 1) _ _ a h hpeak (by omega)

theorem coordinate_limit (request : MatchRequest) (limit : Int) (numChunks : Nat)
    (hl : 0 < limit) :
    ∀ (arrivals : List Arrival) (count matchCount : Nat) (out : List OutEvent),
      count < numChunks → numChunks - count ≤ arrivals.length →
      limit < ((matchCount + ((arrivals.take (numChunks - count)).map (arrivalCount request)).sum : Nat) : Int) →
      ∃ evs, coordinate request limit numChunks arrivals count matchCount out = some (true, evs) := by
  intro arrivals
  induction arrivals with
  | nil => intro count mc out h1 h2; simp at h2; omega
  | cons b rest ih =>
    intro count mc out hlt hlen hsum
    have hstep : numChunks - count = (numChunks - (count + 1)) + 1 := by omega
    rw [hstep] at hsum
    simp only [List.take_succ_cons, List.map_cons, List.sum_cons] at hsum
    rw [coordinate_cons]
    by_cases h1 : limit > 0 ∧ ((mc + arrivalCount request b : Nat) : Int) > limit
    · rw [if_pos h1]; exact ⟨_, rfl⟩
    rw [if_neg h1]
    by_cases h2 : count + 1 = numChunks
    · exfalso
      have : numChunks - (count + 1) = 0 := by omega
      rw [this] at hsum
      simp only [List.take_zero, List.map_nil, List.sum_nil, Nat.add_zero] at hsum
      exact h1 ⟨hl, hsum⟩
    rw [if_neg h2]
    by_cases h3 : (!request.pattern.IsEmpty && b.reqBox.Peak reqReset) = true
    · rw [if_pos h3]; exact ⟨_, rfl⟩
    rw [if_neg h3]
    apply ih
    · omega
    · simp only [List.length_cons] at hlen; omega
    · rw [Nat.add_assoc]
      exact hsum

theorem coordinate_complete (request : MatchRequest) (limit : Int) (numChunks : Nat) :
    ∀ (arrivals : List Arrival) (count matchCount : Nat) (out : List OutEvent),
      count < numChunks → numChunks - count ≤ arrivals.length →
      (0 < limit →
        ((matchCount + ((arrivals.take (numChunks - count)).map (arrivalCount request)).sum : Nat) : Int) ≤ limit) →
      (∀ a ∈ arrivals.take (numChunks - count - 1),
        (!request.pattern.IsEmpty && a.reqBox.Peak reqReset) = false) →
      ∃ evs, coordinate request limit numChunks arrivals count matchCount out = some (false, evs) := by
  intro arrivals
  induction arrivals with
  | nil => intro count mc out h1 h2; simp at h2; omega
  | cons b rest ih =>
    intro count mc out hlt hlen hsum hpeek
    have hstep : numChunks - count = (numChunks - (count + 1)) + 1 := by omega
    rw [hstep] at hsum
    simp only [List.take_succ_cons, List.map_cons, List.sum_cons] at hsum
    rw [coordinate_cons]
    by_cases h1 : limit > 0 ∧ ((mc + arrivalCount request b : Nat) : Int) > limit
    · exfalso
      have := hsum h1.1
      have h12 := h1.2
      omega
    rw [if_neg h1]
    by_cases h2 : count + 1 = numChunks
    · rw [if_pos h2]; exact ⟨_, rfl⟩
    rw [if_neg h2]
    have hk : numChunks - count - 1 = (numChunks - (count + 1) - 1) + 1 := by omega
    rw [hk] at hpeek
    by_cases h3 : (!request.pattern.IsEmpty && b.reqBox.Peak reqReset) = true
    · exfalso
      have := hpeek b (by simp)
      rw [this] at h3
      exact absurd h3 (by simp)
    rw [if_neg h3]
    apply ih
    · omega
    · simp only [List.length_cons] at hlen; omega
    · intro hl
      have := hsum hl
      rw [Nat.add_assoc]
      exact this
    · intro a ha
      apply hpeek
      simp only [List.take_succ_cons, List.mem_cons]
      exact Or.inr ha

theorem coordinate_events (request : MatchRequest) (limit : Int) (numChunks : Nat) :
    ∀ (arrivals : List Arrival) (count matchCount : Nat) (out : List OutEvent) (c : Bool)
      (evs : List OutEvent),
      coordinate request limit numChunks arrivals count matchCount out = some (c, evs) →
      (∀ e ∈ out, e.1 = EvtSearchProgress) → ∀ e ∈ evs, e.1 = EvtSearchProgress := by
  intro arrivals
  induction arrivals with
  | nil => intro count mc out c evs h; simp [coordinate] at h
  | cons b rest ih =>
    intro count mc out c evs h hout
    rw [coordinate_cons] at h
    split_ifs at h with h1 h2 h3 h4
    · simp only [Option.some.injEq, Prod.mk.injEq] at h; rw [← h.2]; exact hout
    · simp only [Option.some.injEq, Prod.mk.injEq] at h; rw [← h.2]; exact hout
    · simp only [Option.some.injEq, Prod.mk.injEq] at h; rw [← h.2]; exact hout
    · apply ih _ _ _ _ _ h
      intro e he
      simp only [List.mem_append, List.mem_singleton] at he
      rcases he with he | rfl
      · exact hout e he
      · rfl
    · exact ih _ _ _ _ _ h hout

/-! ## Workers and the collection of their results -/

theorem foldl_append_matches (request : MatchRequest) :
    ∀ (chunks : List Chunk) (init : List Item),
      chunks.foldl (fun acc chunk => acc ++ matchesOf request chunk) init =
        init ++ (chunks.map (matchesOf request)).flatten := by
  intro chunks
  induction chunks with
  | nil => intro init; simp
  | cons c cs ih => intro init; simp [ih]

theorem foldl_set_spec (f : Nat → List Item) :
    ∀ (order : List Nat) (init : List (List Item)),
      ((order.map (fun i => partialResult.mk i (f i))).foldl
          (fun acc pr => acc.set pr.index pr.«matches») init).length = init.length ∧
      ∀ i, i < init.length →
        ((order.map (fun i => partialResult.mk i (f i))).foldl
          (fun acc pr => acc.set pr.index pr.«matches») init)[i]? =
          if i ∈ order then some (f i) else init[i]? := by
  intro order
  induction order with
  | nil => intro init; simp
  | cons j rest ih =>
    intro init
    simp only [List.map_cons, List.foldl_cons]
    obtain ⟨hlen, hget⟩ := ih (init.set j (f j))
    refine ⟨by rw [hlen, List.length_set], ?_⟩
    intro i hi
    rw [hget i (by rw [List.length_set]; exact hi)]
    by_cases hir : i ∈ rest
    · simp [hir]
    · by_cases hij : i = j
      · subst hij
        simp [hir, hi]
      · have : j ≠ i := fun h => hij h.symm
        simp [hir, hij, List.getElem?_set, this]

theorem collectResults_perm (f : Nat → List Item) (n : Nat) (order : List Nat)
    (hperm : order.Perm (List.range n)) :
    collectResults n ((order.take n).map (fun i => partialResult.mk i (f i))) =
      (List.range n).map f := by
  have hlen : order.length = n := by simpa using hperm.length_eq
  rw [List.take_of_length_le (by omega)]
  unfold collectResults
  obtain ⟨h1, h2⟩ := foldl_set_spec f order (List.replicate n [])
  apply List.ext_getElem?
  intro i
  by_cases hi : i < n
  · rw [h2 i (by simpa using hi)]
    have : i ∈ order := hperm.mem_iff.mpr (List.mem_range.mpr hi)
    simp [this, hi]
  · rw [List.getElem?_eq_none (by rw [h1]; simp; omega),
      List.getElem?_eq_none (by simp; omega)]

theorem map_getD_range {α β : Type} (g : List α → β) (L : List (List α)) :
    (List.range L.length).map (fun idx => g (L.getD idx [])) = L.map g := by
  apply List.ext_getElem?
  intro i
  by_cases hi : i < L.length
  · simp [hi, List.getD_eq_getElem?_getD]
  · rw [List.getElem?_eq_none (by simp; omega), List.getElem?_eq_none (by simp; omega)]

theorem notAfter_total (a b : Item) : ByRelevance.NotAfter a b ∨ ByRelevance.NotAfter b a := by
  unfold ByRelevance.NotAfter ByRelevance.Less
  omega

theorem notAfter_trans (a b c : Item) (h1 : ByRelevance.NotAfter a b)
    (h2 : ByRelevance.NotAfter b c) : ByRelevance.NotAfter a c := by
  unfold ByRelevance.NotAfter ByRelevance.Less at *
  omega

theorem sortByRelevance_sorted (l : List Item) :
    (sortByRelevance l).Pairwise ByRelevance.NotAfter := by
  haveI : IsTotal Item ByRelevance.NotAfter := ⟨notAfter_total⟩
  haveI : IsTrans Item ByRelevance.NotAfter := ⟨notAfter_trans⟩
  exact List.sorted_insertionSort ByRelevance.NotAfter l

theorem sortByRelevance_perm (l : List Item) : (sortByRelevance l).Perm l :=
  List.perm_insertionSort ByRelevance.NotAfter l

theorem scan_complete (m : Matcher) (request : MatchRequest) (limit : Int) (sched : Schedule)
    (addr : Nat) (evs : List OutEvent) (hne : request.chunks ≠ [])
    (hco : coordinate request limit request.chunks.length sched.arrivals 0 0 [] = some (false, evs))
    (hres : sched.results.Perm (List.range (m.sliceChunks request.chunks).length)) :
    m.scan request limit sched addr =
      some { merger := some { addr := addr,
                              obj := NewMerger ((m.sliceChunks request.chunks).map (m.worker request))
                                (!request.pattern.IsEmpty && m.sort) },
             cancelled := false, events := evs } := by
  have hlen : request.chunks.length ≠ 0 := by
    intro h; exact hne (List.length_eq_zero.mp h)
  have hrl : sched.results.length = (m.sliceChunks request.chunks).length := by
    simpa using hres.length_eq
  unfold Matcher.scan
  simp only [hlen, if_false, hco, hrl, lt_irrefl]
  rw [collectResults_perm (fun idx => m.worker request ((m.sliceChunks request.chunks).getD idx []))
    _ _ hres, map_getD_range]

theorem scan_cancelled (m : Matcher) (request : MatchRequest) (limit : Int) (sched : Schedule)
    (addr : Nat) (evs : List OutEvent) (hne : request.chunks ≠ [])
    (hco : coordinate request limit request.chunks.length sched.arrivals 0 0 [] = some (true, evs)) :
    m.scan request limit sched addr = some { merger := none, cancelled := true, events := evs } := by
  have hlen : request.chunks.length ≠ 0 := by
    intro h; exact hne (List.length_eq_zero.mp h)
  unfold Matcher.scan
  simp only [hlen, if_false, hco]

/-! ## scan -/

theorem arrival_sum_eq_total (request : MatchRequest) (arrivals : List Arrival)
    (h : (arrivals.map Arrival.chunk).Perm (List.range request.chunks.length)) :
    (arrivals.map (arrivalCount request)).sum = totalMatches request := by
  have h1 : arrivals.map (arrivalCount request) =
      (arrivals.map Arrival.chunk).map
        (fun i => (matchesOf request (request.chunks.getD i [])).length) := by
    rw [List.map_map]; rfl
  rw [h1, (h.map _).sum_eq,
    map_getD_range (fun c => (matchesOf request c).length) request.chunks]
  unfold totalMatches
  rw [List.map_map]
  rfl

theorem scan_of_some (m : Matcher) (request : MatchRequest) (limit : Int) (sched : Schedule)
    (addr : Nat) (r : ScanResult) (hne : request.chunks ≠ [])
    (h : m.scan request limit sched addr = some r) :
    coordinate request limit request.chunks.length sched.arrivals 0 0 [] =
      some (r.cancelled, r.events) := by
  have hlen : request.chunks.length ≠ 0 := by
    intro h; exact hne (List.length_eq_zero.mp h)
  unfold Matcher.scan at h
  simp only [hlen, if_false] at h
  split at h
  · exact absurd h (by simp)
  · simp only [Option.some.injEq] at h
    subst h
    assumption
  · split_ifs at h
    simp only [Option.some.injEq] at h
    subst h
    assumption

/-- Claim C5: for every non-empty chunk list and every order in which the per-chunk match
counts reach the coordinator, with no reset pending, scan returns; for a limit above 0 it
returns (nil, cancelled = true) if and only if the total number of matches over all chunks
exceeds the limit; with limit 0 it is not cancelled and returns a merger. -/
theorem scan_limit (m : Matcher) (request : MatchRequest) (limit : Int) (sched : Schedule)
    (addr : Nat) (hne : request.chunks ≠ []) (hv : sched.Valid m request)
    (hquiet : sched.Quiet) :
    ∃ r, m.scan request limit sched addr = some r ∧
      (0 < limit →
        ((r.merger = none ∧ r.cancelled = true) ↔ limit < (totalMatches request : Int))) ∧
      (limit = 0 → r.cancelled = false ∧ r.merger ≠ none) := by
  have hlen : sched.arrivals.length = request.chunks.length := by
    simpa using hv.1.length_eq
  have hpos : 0 < request.chunks.length := List.length_pos.mpr hne
  have hsum := arrival_sum_eq_total request sched.arrivals hv.1
  have htake : sched.arrivals.take (request.chunks.length - 0) = sched.arrivals := by
    rw [Nat.sub_zero, List.take_of_length_le (by omega)]
  have hpeek : ∀ a ∈ sched.arrivals.take (request.chunks.length - 0 - 1),
      (!request.pattern.IsEmpty && a.reqBox.Peak reqReset) = false := by
    intro a ha
    rw [hquiet a (List.mem_of_mem_take ha)]
    simp
  by_cases hover : 0 < limit ∧ limit < (totalMatches request : Int)
  · obtain ⟨evs, hco⟩ := coordinate_limit request limit request.chunks.length hover.1
      sched.arrivals 0 0 [] hpos (by omega) (by rw [htake, hsum, Nat.zero_add]; exact hover.2)
    refine ⟨_, scan_cancelled m request limit sched addr evs hne hco, ?_, ?_⟩
    · intro _
      simp [hover.2]
    · intro h0
      omega
  · obtain ⟨evs, hco⟩ := coordinate_complete request limit request.chunks.length
      sched.arrivals 0 0 [] hpos (by omega)
      (by intro hl; rw [htake, hsum, Nat.zero_add]; omega) hpeek
    refine ⟨_, scan_complete m request limit sched addr evs hne hco hv.2, ?_, ?_⟩
    · intro hl
      simp only [Bool.false_eq_true, and_false, false_iff, not_lt]
      omega
    · intro _
      simp

theorem worker_unranked (m : Matcher) (request : MatchRequest) (chunks : List Chunk)
    (h : (!request.pattern.IsEmpty && m.sort) = false) :
    m.worker request chunks = (chunks.map (matchesOf request)).flatten := by
  unfold Matcher.worker
  simp only [h, Bool.false_eq_true, if_false]
  rw [foldl_append_matches]
  simp

theorem worker_ranked (m : Matcher) (request : MatchRequest) (chunks : List Chunk)
    (h : (!request.pattern.IsEmpty && m.sort) = true) :
    m.worker request chunks = sortByRelevance (chunks.map (matchesOf request)).flatten := by
  unfold Matcher.worker
  simp only [h, if_true]
  rw [foldl_append_matches]
  simp

theorem matchesOf_empty (request : MatchRequest) (h : request.pattern.IsEmpty = true)
    (chunks : List Chunk) : chunks.map (matchesOf request) = chunks := by
  have : matchesOf request = id := by
    funext c
    simp [matchesOf, h]
  rw [this, List.map_id]

/-- Claim C7: for every chunk list, every partition count of at least 1 and the empty
pattern (limit 0), whatever the interleaving and whatever is on the request bus, scan
returns cancelled = false and a merger that is not ranked and whose partial results,
concatenated in partition order, are the items of all chunks in store order; its length
is `CountItems` of the chunks, its i-th item is the i-th item of the store, and for the
empty chunk list it is EmptyMerger, of length 0. -/
theorem scan_empty_pattern (m : Matcher) (request : MatchRequest) (sched : Schedule)
    (addr : Nat) (_hp : 1 ≤ m.partitions) (hem : request.pattern.IsEmpty = true)
    (hv : request.chunks ≠ [] → sched.Valid m request) :
    ∃ r mg, m.scan request 0 sched addr = some r ∧ r.cancelled = false ∧
      r.merger = some mg ∧ mg.obj.sorted = false ∧
      mg.obj.lists.flatten = request.chunks.flatten ∧
      mg.obj.Length = CountItems request.chunks ∧
      (∀ i, mg.obj.Get i = request.chunks.flatten[i]?) ∧
      (request.chunks = [] → mg = EmptyMerger ∧ mg.obj.Length = 0) := by
  have key : ∀ mg : MergerPtr, mg.obj.sorted = false →
      mg.obj.lists.flatten = request.chunks.flatten →
      mg.obj.sorted = false ∧ mg.obj.lists.flatten = request.chunks.flatten ∧
      mg.obj.Length = CountItems request.chunks ∧
      (∀ i, mg.obj.Get i = request.chunks.flatten[i]?) := by
    intro mg h1 h2
    refine ⟨h1, h2, ?_, ?_⟩
    · unfold Merger.Length CountItems
      rw [← List.length_flatten, ← List.length_flatten, h2]
    · intro i
      simp [Merger.Get, h1, h2]
  by_cases hne : request.chunks = []
  · refine ⟨{ merger := some EmptyMerger, cancelled := false, events := [] }, EmptyMerger,
      ?_, rfl, rfl, ?_⟩
    · simp [Matcher.scan, hne]
    · obtain ⟨k1, k2, k3, k4⟩ := key EmptyMerger rfl (by simp [hne, EmptyMerger, NewMerger])
      refine ⟨k1, k2, k3, k4, fun _ => ⟨rfl, ?_⟩⟩
      simp [Merger.Length, EmptyMerger, NewMerger]
  · have hval := hv hne
    have hlen : sched.arrivals.length = request.chunks.length := by
      simpa using hval.1.length_eq
    have hpos : 0 < request.chunks.length := List.length_pos.mpr hne
    obtain ⟨evs, hco⟩ := coordinate_complete request 0 request.chunks.length
      sched.arrivals 0 0 [] hpos (by omega) (by intro h; omega)
      (by intro a _; simp [hem])
    have hrank : (!request.pattern.IsEmpty && m.sort) = false := by simp [hem]
    refine ⟨_, _, scan_complete m request 0 sched addr evs hne hco hval.2, rfl, rfl, ?_⟩
    obtain ⟨k1, k2, k3, k4⟩ := key
      { addr := addr,
        obj := NewMerger ((m.sliceChunks request.chunks).map (m.worker request))
          (!request.pattern.IsEmpty && m.sort) }
      (by simp [NewMerger, hem])
      (by
        simp only [NewMerger]
        have : (m.sliceChunks request.chunks).map (m.worker request) =
            (m.sliceChunks request.chunks).map List.flatten := by
          apply List.map_congr_left
          intro s _
          rw [worker_unranked m request s hrank, matchesOf_empty request hem]
        rw [this, ← List.flatten_flatten, sliceChunks_flatten])
    exact ⟨k1, k2, k3, k4, fun h => absurd h hne⟩

/-- Claim C10: when scan of a non-empty chunk list returns uncancelled, the merger is ranked
exactly when the pattern is not empty and `m.sort` is set; it holds one partial result per
slice, at the index of the slice; with ranking each one is ordered by ByRelevance and is a
permutation of the matches of the chunks of its slice, without ranking it is the
concatenation of the per-chunk matches in chunk order; and the merger is the same for
every order in which the workers finish. -/
theorem scan_ranking (m : Matcher) (request : MatchRequest) (limit : Int) (sched : Schedule)
    (addr : Nat) (r : ScanResult) (hne : request.chunks ≠ [])
    (hres : sched.results.Perm (List.range (m.sliceChunks request.chunks).length))
    (hscan : m.scan request limit sched addr = some r) (hc : r.cancelled = false) :
    ∃ mg, r.merger = some mg ∧
      mg.obj.sorted = (!request.pattern.IsEmpty && m.sort) ∧
      mg.obj.lists.length = (m.sliceChunks request.chunks).length ∧
      (∀ (i : Nat) (h : i < (m.sliceChunks request.chunks).length),
        ∃ l, mg.obj.lists[i]? = some l ∧
          ((!request.pattern.IsEmpty && m.sort) = true →
            l.Pairwise ByRelevance.NotAfter ∧
              l.Perm (((m.sliceChunks request.chunks)[i].map (matchesOf request)).flatten)) ∧
          ((!request.pattern.IsEmpty && m.sort) = false →
            l = ((m.sliceChunks request.chunks)[i].map (matchesOf request)).flatten)) ∧
      (∀ (sched2 : Schedule) (r2 : ScanResult),
        sched2.results.Perm (List.range (m.sliceChunks request.chunks).length) →
        m.scan request limit sched2 addr = some r2 → r2.cancelled = false →
        r2.merger = r.merger) := by
  have hco := scan_of_some m request limit sched addr r hne hscan
  rw [hc] at hco
  have hsc := scan_complete m request limit sched addr r.events hne hco hres
  rw [hscan] at hsc
  simp only [Option.some.injEq] at hsc
  refine ⟨_, by rw [hsc], rfl, by simp [NewMerger], ?_, ?_⟩
  · intro i h
    refine ⟨m.worker request (m.sliceChunks request.chunks)[i], by simp [NewMerger, h], ?_, ?_⟩
    · intro hr
      rw [worker_ranked m request _ hr]
      exact ⟨sortByRelevance_sorted _, sortByRelevance_perm _⟩
    · intro hr
      exact worker_unranked m request _ hr
  · intro sched2 r2 hres2 hscan2 hc2
    have hco2 := scan_of_some m request limit sched2 addr r2 hne hscan2
    rw [hc2] at hco2
    have hsc2 := scan_complete m request limit sched2 addr r2.events hne hco2 hres2
    rw [hscan2] at hsc2
    simp only [Option.some.injEq] at hsc2
    rw [hsc, hsc2]

/-! ## Loop -/

theorem scan_uncancelled_nonnil (m : Matcher) (request : MatchRequest) (limit : Int)
    (sched : Schedule) (addr : Nat) (r : ScanResult)
    (h : m.scan request limit sched addr = some r) :
    (r.cancelled = false → ∃ mg, r.merger = some mg) ∧
    (r.cancelled = true → r.merger = none) ∧
    (∀ e ∈ r.events, e.1 = EvtSearchProgress) := by
  unfold Matcher.scan at h
  by_cases h0 : request.chunks.length = 0
  · simp only [h0, if_true, Option.some.injEq] at h
    subst h
    simp
  · simp only [h0, if_false] at h
    split at h
    · exact absurd h (by simp)
    · rename_i out hco
      simp only [Option.some.injEq] at h
      subst h
      refine ⟨by simp, by simp, ?_⟩
      exact coordinate_events _ _ _ _ _ _ _ _ _ hco (by simp)
    · rename_i out hco
      split_ifs at h
      simp only [Option.some.injEq] at h
      subst h
      refine ⟨by simp, by simp, ?_⟩
      exact coordinate_events _ _ _ _ _ _ _ _ _ hco (by simp)

theorem finEvents_progress (evs : List OutEvent) (h : ∀ e ∈ evs, e.1 = EvtSearchProgress) :
    finEvents evs = [] := by
  unfold finEvents
  rw [List.filter_eq_nil_iff]
  intro e he
  have := h e he
  simp [this, EvtSearchProgress, EvtSearchFin]

/-- The three ways through the body of Loop. -/
theorem loopBody_cases (m : Matcher) (st : LoopState) (request : MatchRequest)
    (sched : Schedule) (it : Iteration) (h : m.loopBody st request sched = some it) :
    (∃ cached, CountItems request.chunks = st.prevCount ∧
        st.mergerCache request.pattern.AsString = some cached ∧
        it = { request := request, scanned := none, merger := cached, cancelled := false,
               events := [(EvtSearchFin, Payload.merger cached)],
               state := { prevCount := CountItems request.chunks,
                          mergerCache := cacheStore st.mergerCache request.pattern.AsString cached,
                          nextAddr := st.nextAddr } }) ∨
    (∃ r, (CountItems request.chunks = st.prevCount →
          st.mergerCache request.pattern.AsString = none) ∧
        m.scan request 0 sched st.nextAddr = some r ∧ r.cancelled = true ∧
        it = { request := request, scanned := some r, merger := r.merger, cancelled := true,
               events := r.events,
               state := { prevCount := CountItems request.chunks,
                          mergerCache := if CountItems request.chunks = st.prevCount
                            then st.mergerCache else fun _ => none,
                          nextAddr := st.nextAddr + 1 } }) ∨
    (∃ r, (CountItems request.chunks = st.prevCount →
          st.mergerCache request.pattern.AsString = none) ∧
        m.scan request 0 sched st.nextAddr = some r ∧ r.cancelled = false ∧
        it = { request := request, scanned := some r, merger := r.merger, cancelled := false,
               events := r.events ++ [(EvtSearchFin, Payload.merger r.merger)],
               state := { prevCount := CountItems request.chunks,
                          mergerCache := cacheStore
                            (if CountItems request.chunks = st.prevCount
                              then st.mergerCache else fun _ => none)
                            request.pattern.AsString r.merger,
                          nextAddr := st.nextAddr + 1 } }) := by
  unfold Matcher.loopBody at h
  by_cases hc : CountItems request.chunks = st.prevCount
  · simp only [if_pos hc] at h
    cases hf : st.mergerCache request.pattern.AsString with
    | some cached =>
      left
      rw [hf] at h
      simp only [Option.some.injEq] at h
      exact ⟨cached, hc, rfl, h.symm⟩
    | none =>
      right
      rw [hf] at h
      simp only at h
      cases hs : m.scan request 0 sched st.nextAddr with
      | none => rw [hs] at h; exact absurd h (by simp)
      | some r =>
        rw [hs] at h
        simp only at h
        by_cases hcan : r.cancelled = true
        · left
          simp only [hcan, if_true, Option.some.injEq] at h
          refine ⟨r, fun _ => rfl, rfl, hcan, ?_⟩
          rw [if_pos hc]
          exact h.symm
        · right
          simp only [hcan, Bool.false_eq_true, if_false, Option.some.injEq] at h
          refine ⟨r, fun _ => rfl, rfl, by simpa using hcan, ?_⟩
          rw [if_pos hc]
          exact h.symm
  · simp only [if_neg hc] at h
    right
    cases hs : m.scan request 0 sched st.nextAddr with
    | none => rw [hs] at h; exact absurd h (by simp)
    | some r =>
      rw [hs] at h
      simp only at h
      by_cases hcan : r.cancelled = true
      · left
        simp only [hcan, if_true, Option.some.injEq] at h
        refine ⟨r, fun hh => absurd hh hc, rfl, hcan, ?_⟩
        rw [if_neg hc]
        exact h.symm
      · right
        simp only [hcan, Bool.false_eq_true, if_false, Option.some.injEq] at h
        refine ⟨r, fun hh => absurd hh hc, rfl, by simpa using hcan, ?_⟩
        rw [if_neg hc]
        exact h.symm

theorem loopFrom_cons (m : Matcher) (st : LoopState) (w : Wake) (ws : List Wake)
    (its : List Iteration) (h : m.loopFrom st (w :: ws) = some its) :
    ∃ request it rest, keepRequest w.events = some request ∧
      m.loopBody st request w.sched = some it ∧
      m.loopFrom it.state ws = some rest ∧ its = it :: rest := by
  rw [Matcher.loopFrom] at h
  cases h1 : m.loopIter st w with
  | none => rw [h1] at h; exact absurd h (by simp)
  | some it =>
    rw [h1] at h
    simp only at h
    cases h2 : m.loopFrom it.state ws with
    | none => rw [h2] at h; exact absurd h (by simp)
    | some rest =>
      rw [h2] at h
      simp only [Option.some.injEq] at h
      unfold Matcher.loopIter at h1
      cases h3 : keepRequest w.events with
      | none => rw [h3] at h1; exact absurd h1 (by simp)
      | some request =>
        rw [h3] at h1
        exact ⟨request, it, rest, rfl, h1, h2, h.symm⟩

theorem loopBody_request (m : Matcher) (st : LoopState) (request : MatchRequest)
    (sched : Schedule) (it : Iteration) (h : m.loopBody st request sched = some it) :
    it.request = request := by
  rcases loopBody_cases m st request sched it h with
    ⟨c, _, _, rfl⟩ | ⟨r, _, _, _, rfl⟩ | ⟨r, _, _, _, rfl⟩ <;> rfl

theorem cacheJustified_mono (m : Matcher) (past more : List Iteration) (st : LoopState)
    (h : CacheJustified m past st) : CacheJustified m (past ++ more) st := by
  intro s mg hs
  obtain ⟨it, hit, rest⟩ := h s mg hs
  exact ⟨it, List.mem_append_left _ hit, rest⟩

theorem cacheJustified_step (m : Matcher) (past : List Iteration) (st : LoopState)
    (request : MatchRequest) (sched : Schedule) (it : Iteration)
    (hinv : CacheJustified m past st) (h : m.loopBody st request sched = some it) :
    CacheJustified m (past ++ [it]) it.state := by
  rcases loopBody_cases m st request sched it h with
    ⟨c, hc, hf, rfl⟩ | ⟨r, _, hs, hcan, rfl⟩ | ⟨r, _, hs, hcan, rfl⟩
  · intro s mg hsm
    simp only [cacheStore] at hsm
    have hold : st.mergerCache s = some mg := by
      by_cases hk : s = request.pattern.AsString
      · rw [if_pos hk] at hsm
        rw [hk, hf, ← hsm]
      · rw [if_neg hk] at hsm
        exact hsm
    obtain ⟨it, hit, r, sc, ad, ptr, h1, h2, h3, h4, h5, h6, h7⟩ := hinv s mg hold
    exact ⟨it, List.mem_append_left _ hit, r, sc, ad, ptr, h1, h2, h3, h4, h5, h6,
      by rw [h7]; exact hc.symm⟩
  · intro s mg hsm
    simp only at hsm
    by_cases hc : CountItems request.chunks = st.prevCount
    · rw [if_pos hc] at hsm
      obtain ⟨it, hit, r, sc, ad, ptr, h1, h2, h3, h4, h5, h6, h7⟩ := hinv s mg hsm
      exact ⟨it, List.mem_append_left _ hit, r, sc, ad, ptr, h1, h2, h3, h4, h5, h6,
        by rw [h7]; exact hc.symm⟩
    · rw [if_neg hc] at hsm
      exact absurd hsm (by simp)
  · intro s mg hsm
    simp only [cacheStore] at hsm
    by_cases hk : s = request.pattern.AsString
    · rw [if_pos hk] at hsm
      simp only [Option.some.injEq] at hsm
      obtain ⟨ptr, hptr⟩ := (scan_uncancelled_nonnil m request 0 sched st.nextAddr r hs).1 hcan
      refine ⟨_, List.mem_append_right _ (List.mem_singleton.mpr rfl), r, sched, st.nextAddr,
        ptr, rfl, hs, hcan, hsm, ?_, hk.symm, rfl⟩
      rw [← hsm, hptr]
    · rw [if_neg hk] at hsm
      by_cases hc : CountItems request.chunks = st.prevCount
      · rw [if_pos hc] at hsm
        obtain ⟨it, hit, r, sc, ad, ptr, h1, h2, h3, h4, h5, h6, h7⟩ := hinv s mg hsm
        exact ⟨it, List.mem_append_left _ hit, r, sc, ad, ptr, h1, h2, h3, h4, h5, h6,
          by rw [h7]; exact hc.symm⟩
      · rw [if_neg hc] at hsm
        exact absurd hsm (by simp)

theorem cacheJustified_loopFrom (m : Matcher) :
    ∀ (ws : List Wake) (st : LoopState) (past its : List Iteration),
      CacheJustified m past st → m.loopFrom st ws = some its →
      CacheJustified m (past ++ its) (lastState st its) := by
  intro ws
  induction ws with
  | nil =>
    intro st past its hinv h
    simp only [Matcher.loopFrom, Option.some.injEq] at h
    subst h
    simpa [lastState] using hinv
  | cons w ws ih =>
    intro st past its hinv h
    obtain ⟨request, it, rest, _, hb, hrest, rfl⟩ := loopFrom_cons m st w ws its h
    have := ih it.state (past ++ [it]) rest (cacheJustified_step m past st request w.sched it hinv hb)
      hrest
    simpa [lastState] using this

theorem cacheJustified_reachable (m : Matcher) (st : LoopState) (h : m.Reachable st) :
    ∃ its, CacheJustified m its st := by
  obtain ⟨ws, its, hl, rfl⟩ := h
  refine ⟨its, ?_⟩
  have := cacheJustified_loopFrom m ws LoopState.init [] its
    (by intro s mg hs; simp [LoopState.init] at hs) hl
  simpa using this

theorem coordinate_returns (request : MatchRequest) (limit : Int) (numChunks : Nat) :
    ∀ (arrivals : List Arrival) (count matchCount : Nat) (out : List OutEvent),
      count < numChunks → numChunks - count ≤ arrivals.length →
      ∃ res, coordinate request limit numChunks arrivals count matchCount out = some res := by
  intro arrivals
  induction arrivals with
  | nil => intro count mc out h1 h2; simp at h2; omega
  | cons b rest ih =>
    intro count mc out hlt hlen
    rw [coordinate_cons]
    by_cases h1 : limit > 0 ∧ ((mc + arrivalCount request b : Nat) : Int) > limit
    · rw [if_pos h1]; exact ⟨_, rfl⟩
    rw [if_neg h1]
    by_cases h2 : count + 1 = numChunks
    · rw [if_pos h2]; exact ⟨_, rfl⟩
    rw [if_neg h2]
    by_cases h3 : (!request.pattern.IsEmpty && b.reqBox.Peak reqReset) = true
    · rw [if_pos h3]; exact ⟨_, rfl⟩
    rw [if_neg h3]
    apply ih
    · omega
    · simp only [List.length_cons] at hlen; omega

theorem scan_returns (m : Matcher) (request : MatchRequest) (limit : Int) (sched : Schedule)
    (addr : Nat) (hv : request.chunks ≠ [] → sched.Valid m request) :
    ∃ r, m.scan request limit sched addr = some r := by
  by_cases hne : request.chunks = []
  · exact ⟨_, by simp [Matcher.scan, hne]; rfl⟩
  · have hval := hv hne
    have hlen : sched.arrivals.length = request.chunks.length := by
      simpa using hval.1.length_eq
    have hpos : 0 < request.chunks.length := List.length_pos.mpr hne
    obtain ⟨⟨c, evs⟩, hco⟩ := coordinate_returns request limit request.chunks.length
      sched.arrivals 0 0 [] hpos (by omega)
    cases c with
    | true => exact ⟨_, scan_cancelled m request limit sched addr evs hne hco⟩
    | false => exact ⟨_, scan_complete m request limit sched addr evs hne hco hval.2⟩

theorem loopBody_returns (m : Matcher) (st : LoopState) (request : MatchRequest)
    (sched : Schedule) (hv : request.chunks ≠ [] → sched.Valid m request) :
    ∃ it, m.loopBody st request sched = some it := by
  obtain ⟨r, hr⟩ := scan_returns m request 0 sched st.nextAddr hv
  unfold Matcher.loopBody
  simp only [hr]
  split
  · exact ⟨_, rfl⟩
  · split <;> exact ⟨_, rfl⟩

/-- What an iteration that starts in a reachable state sets on the output bus, in terms
of its final `cancelled`. -/
theorem loopBody_fin_fields (m : Matcher) (st : LoopState) (request : MatchRequest)
    (sched : Schedule) (it : Iteration) (hst : m.Reachable st)
    (h : m.loopBody st request sched = some it) :
    (finEvents it.events).length ≤ 1 ∧
    (finEvents it.events ≠ [] ↔ it.cancelled = false) ∧
    (it.cancelled = false ↔
      (it.scanned = none ∨ ∃ r, it.scanned = some r ∧ r.cancelled = false)) ∧
    (it.cancelled = false →
      ∃ mg, it.merger = some mg ∧
        finEvents it.events = [(EvtSearchFin, Payload.merger (some mg))] ∧
        it.state.mergerCache request.pattern.AsString = some (some mg)) ∧
    (it.cancelled = true →
      finEvents it.events = [] ∧
      ∀ k v, it.state.mergerCache k = some v → st.mergerCache k = some v) := by
  obtain ⟨past, hinv⟩ := cacheJustified_reachable m st hst
  rcases loopBody_cases m st request sched it h with
    ⟨c, hc, hf, rfl⟩ | ⟨r, _, hs, hcan, rfl⟩ | ⟨r, _, hs, hcan, rfl⟩
  · obtain ⟨_, _, _, _, _, ptr, _, _, _, _, hptr, _, _⟩ := hinv _ c hf
    subst hptr
    refine ⟨by simp [finEvents], by simp [finEvents], by simp, ?_, by simp⟩
    intro _
    exact ⟨ptr, rfl, by simp [finEvents], by simp [cacheStore]⟩
  · obtain ⟨_, _, hev⟩ := scan_uncancelled_nonnil m request 0 sched st.nextAddr r hs
    have hfin := finEvents_progress r.events hev
    refine ⟨by simp [hfin], by simp [hfin], by simp [hcan], by simp, ?_⟩
    intro _
    refine ⟨hfin, ?_⟩
    intro k v hk
    simp only at hk
    by_cases hc : CountItems request.chunks = st.prevCount
    · rw [if_pos hc] at hk; exact hk
    · rw [if_neg hc] at hk; exact absurd hk (by simp)
  · obtain ⟨hnn, _, hev⟩ := scan_uncancelled_nonnil m request 0 sched st.nextAddr r hs
    obtain ⟨ptr, hptr⟩ := hnn hcan
    have hfin : finEvents (r.events ++ [(EvtSearchFin, Payload.merger r.merger)]) =
        [(EvtSearchFin, Payload.merger r.merger)] := by
      have := finEvents_progress r.events hev
      unfold finEvents at this ⊢
      rw [List.filter_append, this]
      simp
    refine ⟨by simp [hfin], by simp [hfin], by simp [hcan], ?_, by simp⟩
    intro _
    exact ⟨ptr, hptr, by rw [hfin, hptr], by simp [cacheStore, hptr]⟩

/-- Claim C4: after any run of Loop from its initial state, every cache entry keyed by `s`
is a merger returned by an uncancelled scan of a request with pattern string `s` and item
count `prevCount`; and an iteration whose item count differs from `prevCount` runs scan,
sets `prevCount` to the new count, leaves in the cache nothing but what that scan returned,
and publishes nothing but what that scan returned. -/
theorem loop_cache_invariant (m : Matcher) (ws : List Wake) (its : List Iteration)
    (h : m.Loop ws = some its) :
    CacheJustified m its (lastState LoopState.init its) ∧
    (∀ (request : MatchRequest) (sched : Schedule),
      CountItems request.chunks ≠ (lastState LoopState.init its).prevCount →
      ((request.chunks ≠ [] → sched.Valid m request) →
        ∃ it, m.loopBody (lastState LoopState.init its) request sched = some it) ∧
      ∀ it, m.loopBody (lastState LoopState.init its) request sched = some it →
        ∃ r, it.scanned = some r ∧
          m.scan request 0 sched (lastState LoopState.init its).nextAddr = some r ∧
          it.merger = r.merger ∧ it.cancelled = r.cancelled ∧
          it.state.prevCount = CountItems request.chunks ∧
          (∀ k, it.state.mergerCache k =
            if k = request.pattern.AsString ∧ r.cancelled = false then some r.merger else none) ∧
          finEvents it.events =
            if r.cancelled = true then [] else [(EvtSearchFin, Payload.merger r.merger)]) := by
  constructor
  · have := cacheJustified_loopFrom m ws LoopState.init [] its
      (by intro s mg hs; simp [LoopState.init] at hs) h
    simpa using this
  · intro request sched hne
    refine ⟨loopBody_returns m _ request sched, ?_⟩
    intro it hb
    rcases loopBody_cases m _ request sched it hb with
      ⟨c, hc, hf, rfl⟩ | ⟨r, _, hs, hcan, rfl⟩ | ⟨r, _, hs, hcan, rfl⟩
    · exact absurd hc hne
    · obtain ⟨_, _, hev⟩ := scan_uncancelled_nonnil m request 0 sched _ r hs
      refine ⟨r, rfl, hs, rfl, hcan.symm, rfl, ?_, ?_⟩
      · intro k
        simp [hne, hcan]
      · simp [hcan, finEvents_progress r.events hev]
    · obtain ⟨_, _, hev⟩ := scan_uncancelled_nonnil m request 0 sched _ r hs
      refine ⟨r, rfl, hs, rfl, hcan.symm, rfl, ?_, ?_⟩
      · intro k
        simp [hne, hcan, cacheStore]
      · have := finEvents_progress r.events hev
        unfold finEvents at this ⊢
        rw [List.filter_append, this]
        simp [hcan]

theorem loopBody_establishes (m : Matcher) (st : LoopState) (request : MatchRequest)
    (sched : Schedule) (a : Iteration) (h : m.loopBody st request sched = some a)
    (hnc : a.cancelled = false) :
    a.state.prevCount = CountItems request.chunks ∧
    a.state.mergerCache request.pattern.AsString = some a.merger ∧
    finEvents a.events = [(EvtSearchFin, Payload.merger a.merger)] := by
  rcases loopBody_cases m st request sched a h with
    ⟨c, hc, hf, rfl⟩ | ⟨r, _, hs, hcan, rfl⟩ | ⟨r, _, hs, hcan, rfl⟩
  · exact ⟨rfl, by simp [cacheStore], by simp [finEvents]⟩
  · simp at hnc
  · obtain ⟨_, _, hev⟩ := scan_uncancelled_nonnil m request 0 sched _ r hs
    refine ⟨rfl, by simp [cacheStore], ?_⟩
    have := finEvents_progress r.events hev
    unfold finEvents at this ⊢
    rw [List.filter_append, this]
    simp

theorem loopBody_keeps (m : Matcher) (st : LoopState) (request : MatchRequest)
    (sched : Schedule) (it : Iteration) (s : String) (mg : Option MergerPtr)
    (hcache : st.mergerCache s = some mg)
    (hcount : CountItems request.chunks = st.prevCount)
    (h : m.loopBody st request sched = some it) :
    (it.state.prevCount = st.prevCount ∧ it.state.mergerCache s = some mg) ∧
    (request.pattern.AsString = s →
      it.scanned = none ∧ it.cancelled = false ∧ it.merger = mg ∧
      it.events = [(EvtSearchFin, Payload.merger mg)]) := by
  rcases loopBody_cases m st request sched it h with
    ⟨c, hc, hf, rfl⟩ | ⟨r, hmiss, hs, hcan, rfl⟩ | ⟨r, hmiss, hs, hcan, rfl⟩
  · have hsame : request.pattern.AsString = s → c = mg := by
      intro hk
      rw [hk, hcache] at hf
      exact (Option.some.inj hf).symm
    refine ⟨⟨hc, ?_⟩, ?_⟩
    · simp only [cacheStore]
      by_cases hk : s = request.pattern.AsString
      · rw [if_pos hk, hsame hk.symm]
      · rw [if_neg hk]; exact hcache
    · intro hk
      rw [hsame hk]
      exact ⟨rfl, rfl, rfl, rfl⟩
  · have hno := hmiss hcount
    refine ⟨⟨hcount, ?_⟩, ?_⟩
    · simp only [if_pos hcount]; exact hcache
    · intro hk
      rw [hk, hcache] at hno
      exact absurd hno (by simp)
  · have hno := hmiss hcount
    refine ⟨⟨hcount, ?_⟩, ?_⟩
    · simp only [if_pos hcount, cacheStore]
      by_cases hk : s = request.pattern.AsString
      · rw [← hk, hcache] at hno
        exact absurd hno (by simp)
      · rw [if_neg hk]; exact hcache
    · intro hk
      rw [hk, hcache] at hno
      exact absurd hno (by simp)

theorem loopFrom_hits (m : Matcher) (s : String) (mg : Option MergerPtr) (c : Nat) :
    ∀ (ws : List Wake) (st : LoopState) (its : List Iteration),
      st.prevCount = c → st.mergerCache s = some mg →
      m.loopFrom st ws = some its →
      (∀ it ∈ its, CountItems it.request.chunks = c) →
      ∀ (j : Nat) (b : Iteration), its[j]? = some b → b.request.pattern.AsString = s →
        b.scanned = none ∧ b.cancelled = false ∧ b.merger = mg ∧
        b.events = [(EvtSearchFin, Payload.merger mg)] := by
  intro ws
  induction ws with
  | nil =>
    intro st its _ _ h _ j b hb
    simp only [Matcher.loopFrom, Option.some.injEq] at h
    subst h
    simp at hb
  | cons w ws ih =>
    intro st its hpc hcache h hcount j b hb hpat
    obtain ⟨request, it, rest, _, hbody, hrest, rfl⟩ := loopFrom_cons m st w ws its h
    have hreq := loopBody_request m st request w.sched it hbody
    have hcnt : CountItems request.chunks = st.prevCount := by
      rw [hpc, ← hreq]
      exact hcount it (List.mem_cons_self _ _)
    obtain ⟨⟨k1, k2⟩, k3⟩ := loopBody_keeps m st request w.sched it s mg hcache hcnt hbody
    cases j with
    | zero =>
      simp only [List.getElem?_cons_zero, Option.some.injEq] at hb
      subst hb
      exact k3 (by rw [← hreq]; exact hpat)
    | succ j =>
      simp only [List.getElem?_cons_succ] at hb
      exact ih it.state rest (by rw [k1, hpc]) k2 hrest
        (fun x hx => hcount x (List.mem_cons_of_mem _ hx)) j b hb hpat

/-- Claim C3: in a run of Loop whose requests all have the same item count, when two
iterations carry the same pattern string and the earlier one is not cancelled, the later
one does not call scan and sets EvtSearchFin, once, with the merger (same address, same
object) that the earlier one set. -/
theorem loop_cache_hit (m : Matcher) (c : Nat) :
    ∀ (ws : List Wake) (st : LoopState) (its : List Iteration),
      m.loopFrom st ws = some its →
      (∀ it ∈ its, CountItems it.request.chunks = c) →
      ∀ (i j : Nat) (a b : Iteration), i < j → its[i]? = some a → its[j]? = some b →
        a.request.pattern.AsString = b.request.pattern.AsString →
        a.cancelled = false →
        b.scanned = none ∧ b.cancelled = false ∧ b.merger = a.merger ∧
        b.events = [(EvtSearchFin, Payload.merger a.merger)] ∧
        finEvents a.events = [(EvtSearchFin, Payload.merger a.merger)] := by
  intro ws
  induction ws with
  | nil =>
    intro st its h _ i j a b _ ha
    simp only [Matcher.loopFrom, Option.some.injEq] at h
    subst h
    simp at ha
  | cons w ws ih =>
    intro st its h hcount i j a b hij ha hb hpat hnc
    obtain ⟨request, it, rest, _, hbody, hrest, rfl⟩ := loopFrom_cons m st w ws its h
    obtain ⟨j, rfl⟩ : ∃ j0, j = j0 + 1 := ⟨j - 1, by omega⟩
    simp only [List.getElem?_cons_succ] at hb
    cases i with
    | zero =>
      simp only [List.getElem?_cons_zero, Option.some.injEq] at ha
      subst ha
      have hreq := loopBody_request m st request w.sched it hbody
      obtain ⟨e1, e2, e3⟩ := loopBody_establishes m st request w.sched it hbody hnc
      have hc0 : CountItems request.chunks = c := by
        rw [← hreq]; exact hcount it (List.mem_cons_self _ _)
      have := loopFrom_hits m b.request.pattern.AsString it.merger c ws it.state rest
        (by rw [e1, hc0]) (by rw [← hpat, hreq]; exact e2) hrest
        (fun x hx => hcount x (List.mem_cons_of_mem _ hx)) j b hb rfl
      exact ⟨this.1, this.2.1, this.2.2.1, this.2.2.2, e3⟩
    | succ i =>
      simp only [List.getElem?_cons_succ] at ha
      exact ih it.state rest hrest (fun x hx => hcount x (List.mem_cons_of_mem _ hx))
        i j a b (by omega) ha hb hpat hnc

/-- Claim C1, as amended: for a request with a non-empty pattern, at least two chunks and
limit 0, if a reqReset is on the request bus when the coordinator has counted a chunk that
is not the last one, scan returns (nil, cancelled = true), and the iteration of Loop that
runs this scan sets no EvtSearchFin. -/
theorem scan_reset_cancels (m : Matcher) (request : MatchRequest) (sched : Schedule)
    (addr k : Nat) (a : Arrival) (hne : request.pattern.IsEmpty = false)
    (hk : k + 1 < request.chunks.length) (ha : sched.arrivals[k]? = some a)
    (hpeak : a.reqBox.Peak reqReset = true) :
    (∃ evs, m.scan request 0 sched addr =
      some { merger := none, cancelled := true, events := evs }) ∧
    ∀ st : LoopState,
      (CountItems request.chunks = st.prevCount →
        st.mergerCache request.pattern.AsString = none) →
      ∃ it, m.loopBody st request sched = some it ∧ it.scanned ≠ none ∧
        it.cancelled = true ∧ it.merger = none ∧ finEvents it.events = [] := by
  have hnil : request.chunks ≠ [] := by
    intro h; rw [h] at hk; simp at hk
  have hscan : ∀ ad, ∃ evs, m.scan request 0 sched ad =
      some { merger := none, cancelled := true, events := evs } := by
    intro ad
    obtain ⟨evs, hco⟩ := coordinate_reset request 0 request.chunks.length hne sched.arrivals
      k 0 0 [] a ha hpeak (by omega)
    exact ⟨evs, scan_cancelled m request 0 sched ad evs hnil hco⟩
  refine ⟨hscan addr, ?_⟩
  intro st hmiss
  obtain ⟨evs, hs⟩ := hscan st.nextAddr
  obtain ⟨_, _, hev⟩ := scan_uncancelled_nonnil m request 0 sched _ _ hs
  have hfound : (if CountItems request.chunks = st.prevCount
      then st.mergerCache request.pattern.AsString else none) = none := by
    by_cases hc : CountItems request.chunks = st.prevCount
    · rw [if_pos hc]; exact hmiss hc
    · rw [if_neg hc]
  have hb : ∃ it, m.loopBody st request sched = some it := by
    unfold Matcher.loopBody
    simp only [hfound, hs, if_true]
    exact ⟨_, rfl⟩
  obtain ⟨it, hb⟩ := hb
  refine ⟨it, hb, ?_⟩
  rcases loopBody_cases m st request sched it hb with
    ⟨c, hc, hf, rfl⟩ | ⟨r, _, hs2, hcan, rfl⟩ | ⟨r, _, hs2, hcan, rfl⟩
  · rw [hmiss hc] at hf
    exact absurd hf (by simp)
  · rw [hs] at hs2
    simp only [Option.some.injEq] at hs2
    subst hs2
    exact ⟨by simp, rfl, rfl, finEvents_progress evs hev⟩
  · rw [hs] at hs2
    simp only [Option.some.injEq] at hs2
    subst hs2
    simp at hcan

/-! ## The handler of the request bus -/

theorem keepRequest_concat (l : List (EventType × MatchRequest)) (e : EventType × MatchRequest) :
    keepRequest (l ++ [e]) = some e.2 := by
  simp [keepRequest, List.foldl_append]

theorem resets_concat (m : Matcher) (earlier : List ResetCall) (last : ResetCall) :
    m.resets (earlier ++ [last]) =
      m.Reset (m.resets earlier) last.chunks last.patternRunes last.cancel := by
  simp [Matcher.resets, List.foldl_append]

theorem resets_kinds (m : Matcher) (k : EventType) :
    ∀ (calls : List ResetCall) (box : EventBox MatchRequest),
      (∀ e ∈ box.events, e.1 = k) →
      (∀ c ∈ calls, (if c.cancel then reqReset else reqRetry) = k) →
      ∀ e ∈ (calls.foldl (fun b c => m.Reset b c.chunks c.patternRunes c.cancel) box).events,
        e.1 = k := by
  intro calls
  induction calls with
  | nil => intro box hb _ e he; exact hb e he
  | cons c cs ih =>
    intro box hb hc e he
    simp only [List.foldl_cons] at he
    refine ih _ ?_ (fun x hx => hc x (List.mem_cons_of_mem _ hx)) e he
    intro x hx
    simp only [Matcher.Reset, EventBox.Set, List.mem_append, List.mem_filter,
      List.mem_singleton] at hx
    rcases hx with ⟨hx1, _⟩ | rfl
    · exact hb x hx1
    · exact hc c (List.mem_cons_self _ _)

/-- The handler keeps the request of the last Reset call when the kind of that call is
visited last, and when all the calls used the same `cancel` flag. -/
theorem keepRequest_of_last_kind (m : Matcher) (earlier : List ResetCall) (last : ResetCall)
    (order : List (EventType × MatchRequest))
    (hperm : order.Perm (m.resets (earlier ++ [last])).events) :
    (order.getLast?.map Prod.fst = some (if last.cancel then reqReset else reqRetry) →
      keepRequest order =
        some { chunks := last.chunks, pattern := m.patternBuilder last.patternRunes }) ∧
    ((∀ c ∈ earlier, c.cancel = last.cancel) →
      keepRequest order =
        some { chunks := last.chunks, pattern := m.patternBuilder last.patternRunes }) := by
  have hev : (m.resets (earlier ++ [last])).events =
      (m.resets earlier).events.filter
          (fun e => decide (e.1 ≠ (if last.cancel then reqReset else reqRetry))) ++
        [((if last.cancel then reqReset else reqRetry),
          { chunks := last.chunks, pattern := m.patternBuilder last.patternRunes })] := by
    rw [resets_concat]
    rfl
  have key : order.getLast?.map Prod.fst = some (if last.cancel then reqReset else reqRetry) →
      keepRequest order =
        some { chunks := last.chunks, pattern := m.patternBuilder last.patternRunes } := by
    intro hlast
    cases hg : order.getLast? with
    | none => rw [hg] at hlast; simp at hlast
    | some e =>
      rw [hg] at hlast
      simp only [Option.map_some', Option.some.injEq] at hlast
      obtain ⟨l, rfl⟩ : ∃ l, order = l ++ [e] := by
        rcases List.eq_nil_or_concat order with h | ⟨l, x, h⟩
        · rw [h] at hg; simp at hg
        · rw [h] at hg
          simp only [List.concat_eq_append, List.getLast?_append, List.getLast?_singleton,
            Option.or, Option.some.injEq] at hg
          exact ⟨l, by rw [h, ← hg]; simp⟩
      rw [keepRequest_concat]
      have hmem : e ∈ (m.resets (earlier ++ [last])).events :=
        hperm.mem_iff.mp (by simp)
      rw [hev] at hmem
      simp only [List.mem_append, List.mem_filter, List.mem_singleton] at hmem
      rcases hmem with ⟨_, h2⟩ | h
      · simp [hlast] at h2
      · rw [h]
  refine ⟨key, ?_⟩
  intro hsame
  apply key
  have hall : ∀ e ∈ (m.resets earlier).events,
      e.1 = (if last.cancel then reqReset else reqRetry) := by
    apply resets_kinds m _ earlier { events := [] } (by simp)
    intro c hc
    rw [hsame c hc]
  have hnil : (m.resets earlier).events.filter
      (fun e => decide (e.1 ≠ (if last.cancel then reqReset else reqRetry))) = [] := by
    rw [List.filter_eq_nil_iff]
    intro e he
    simp [hall e he]
  rw [hev, hnil, List.nil_append] at hperm
  have := List.perm_singleton.mp hperm
  rw [this]
  simp

/-! ## The request kept by the handler, the events set by an iteration -/

theorem lastStored_concat_same (m : Matcher) (hist : List ResetCall) (c : ResetCall) :
    m.lastStored (hist ++ [c]) (if c.cancel then reqReset else reqRetry) =
      some { chunks := c.chunks, pattern := m.patternBuilder c.patternRunes } := by
  simp [Matcher.lastStored, List.filter_append]

theorem lastStored_concat_other (m : Matcher) (hist : List ResetCall) (c : ResetCall)
    (k : EventType) (hk : k ≠ (if c.cancel then reqReset else reqRetry)) :
    m.lastStored (hist ++ [c]) k = m.lastStored hist k := by
  have : (if c.cancel then reqReset else reqRetry) ≠ k := fun h => hk h.symm
  simp [Matcher.lastStored, List.filter_append, this]

theorem resets_lastStored (m : Matcher) :
    ∀ (calls hist : List ResetCall) (box : EventBox MatchRequest),
      (∀ e ∈ box.events, some e.2 = m.lastStored hist e.1) →
      ∀ e ∈ (calls.foldl (fun b c => m.Reset b c.chunks c.patternRunes c.cancel) box).events,
        some e.2 = m.lastStored (hist ++ calls) e.1 := by
  intro calls
  induction calls with
  | nil => intro hist box hb e he; simpa using hb e he
  | cons c cs ih =>
    intro hist box hb e he
    simp only [List.foldl_cons] at he
    have := ih (hist ++ [c]) _ ?_ e he
    · simpa using this
    · intro x hx
      simp only [Matcher.Reset, EventBox.Set, List.mem_append, List.mem_filter,
        List.mem_singleton, decide_eq_true_eq] at hx
      rcases hx with ⟨hx1, hx2⟩ | rfl
      · rw [lastStored_concat_other m hist c x.1 hx2]
        exact hb x hx1
      · exact (lastStored_concat_same m hist c).symm

/-- Claim C2, as amended: after one or more Reset calls on an empty request bus, whatever
the order in which the drained mapping is visited, the handler keeps a request, and it is
the one most recently stored under the event kind visited last; so it is the request of
the last Reset call whenever the kind of that call (`reqReset` or `reqRetry`) is the one
visited last, in particular whenever all the calls used the same `cancel` flag. -/
theorem loop_keeps_last_visited (m : Matcher) (earlier : List ResetCall) (last : ResetCall)
    (order : List (EventType × MatchRequest))
    (hperm : order.Perm (m.resets (earlier ++ [last])).events) :
    (∃ kind kept, order.getLast?.map Prod.fst = some kind ∧ keepRequest order = some kept) ∧
    (∀ kind, order.getLast?.map Prod.fst = some kind →
      keepRequest order = m.lastStored (earlier ++ [last]) kind) ∧
    (order.getLast?.map Prod.fst = some (if last.cancel then reqReset else reqRetry) →
      keepRequest order =
        some { chunks := last.chunks, pattern := m.patternBuilder last.patternRunes }) ∧
    ((∀ c ∈ earlier, c.cancel = last.cancel) →
      keepRequest order =
        some { chunks := last.chunks, pattern := m.patternBuilder last.patternRunes }) := by
  have hold := keepRequest_of_last_kind m earlier last order hperm
  have hne : order ≠ [] := by
    intro h
    rw [h] at hperm
    have := hperm.length_eq
    rw [resets_concat] at this
    simp [Matcher.Reset, EventBox.Set] at this
  obtain ⟨l, e, rfl⟩ : ∃ l e, order = l ++ [e] := by
    rcases List.eq_nil_or_concat order with h | ⟨l, x, h⟩
    · exact absurd h hne
    · exact ⟨l, x, by rw [h]; simp⟩
  have hmem : e ∈ (m.resets (earlier ++ [last])).events := hperm.mem_iff.mp (by simp)
  have hst := resets_lastStored m (earlier ++ [last]) [] { events := [] } (by simp) e hmem
  rw [List.nil_append] at hst
  refine ⟨⟨e.1, e.2, by simp, keepRequest_concat l e⟩, ?_, hold.1, hold.2⟩
  intro kind hk
  simp only [List.getLast?_append, List.getLast?_singleton, Option.or, Option.map_some',
    Option.some.injEq] at hk
  rw [keepRequest_concat, ← hk]
  exact hst

theorem loopBody_hit (m : Matcher) (st : LoopState) (request : MatchRequest)
    (sched : Schedule) (cached : Option MergerPtr)
    (hc : CountItems request.chunks = st.prevCount)
    (hf : st.mergerCache request.pattern.AsString = some cached) :
    ∃ it, m.loopBody st request sched = some it := by
  unfold Matcher.loopBody
  simp only [if_pos hc, hf]
  exact ⟨_, rfl⟩

theorem loopBody_miss (m : Matcher) (st : LoopState) (request : MatchRequest)
    (sched : Schedule)
    (hmiss : CountItems request.chunks = st.prevCount →
      st.mergerCache request.pattern.AsString = none) :
    (m.scan request 0 sched st.nextAddr = none → m.loopBody st request sched = none) ∧
    (∀ r, m.scan request 0 sched st.nextAddr = some r →
      ∃ it, m.loopBody st request sched = some it) := by
  have hfound : (if CountItems request.chunks = st.prevCount
      then st.mergerCache request.pattern.AsString else none) = none := by
    by_cases hc : CountItems request.chunks = st.prevCount
    · rw [if_pos hc]; exact hmiss hc
    · rw [if_neg hc]
  constructor
  · intro hs
    unfold Matcher.loopBody
    simp only [hfound, hs]
  · intro r hs
    unfold Matcher.loopBody
    simp only [hfound, hs]
    split <;> exact ⟨_, rfl⟩

/-- Claim C6: in an iteration of Loop that starts in a reachable state: on a cache hit
(same count, pattern string in the cache) the iteration completes without calling scan
and sets EvtSearchFin once, with the cached merger; otherwise it completes exactly when
scan returns, scan itself sets no EvtSearchFin, and the iteration sets EvtSearchFin, once
and with the merger scan returned, exactly when scan returned cancelled = false.  So
EvtSearchFin is set at most once, and if and only if the iteration is not cancelled; its
payload is then a non-nil merger, the one stored in the cache under the pattern string of
the request; when scan is cancelled nothing is set and the cache gets no new entry. -/
theorem loopBody_searchFin (m : Matcher) (st : LoopState) (request : MatchRequest)
    (sched : Schedule) (hst : m.Reachable st) :
    (∀ cached, CountItems request.chunks = st.prevCount →
      st.mergerCache request.pattern.AsString = some cached →
      ∃ it, m.loopBody st request sched = some it ∧ it.scanned = none ∧
        it.cancelled = false ∧ it.merger = cached ∧
        it.events = [(EvtSearchFin, Payload.merger cached)]) ∧
    ((CountItems request.chunks = st.prevCount →
        st.mergerCache request.pattern.AsString = none) →
      (m.scan request 0 sched st.nextAddr = none → m.loopBody st request sched = none) ∧
      ∀ r, m.scan request 0 sched st.nextAddr = some r →
        ∃ it, m.loopBody st request sched = some it ∧ it.scanned = some r ∧
          it.cancelled = r.cancelled ∧ it.merger = r.merger ∧
          finEvents r.events = [] ∧
          it.events = r.events ++
            (if r.cancelled = true then [] else [(EvtSearchFin, Payload.merger r.merger)])) ∧
    (∀ it, m.loopBody st request sched = some it →
      (finEvents it.events).length ≤ 1 ∧
      (finEvents it.events ≠ [] ↔ it.cancelled = false) ∧
      (it.cancelled = false ↔
        (it.scanned = none ∨ ∃ r, it.scanned = some r ∧ r.cancelled = false)) ∧
      (it.scanned = none ↔
        (CountItems request.chunks = st.prevCount ∧
          ∃ cached, st.mergerCache request.pattern.AsString = some cached)) ∧
      (∀ r, it.scanned = some r → m.scan request 0 sched st.nextAddr = some r) ∧
      (it.cancelled = false →
        ∃ mg, it.merger = some mg ∧
          finEvents it.events = [(EvtSearchFin, Payload.merger (some mg))] ∧
          it.state.mergerCache request.pattern.AsString = some (some mg)) ∧
      (it.cancelled = true →
        finEvents it.events = [] ∧
        ∀ k v, it.state.mergerCache k = some v → st.mergerCache k = some v)) := by
  refine ⟨?_, ?_, ?_⟩
  · intro cached hc hf
    obtain ⟨it, hb⟩ := loopBody_hit m st request sched cached hc hf
    refine ⟨it, hb, ?_⟩
    rcases loopBody_cases m st request sched it hb with
      ⟨c, _, hf2, rfl⟩ | ⟨r, hm, _, _, rfl⟩ | ⟨r, hm, _, _, rfl⟩
    · rw [hf] at hf2
      simp only [Option.some.injEq] at hf2
      subst hf2
      exact ⟨rfl, rfl, rfl, rfl⟩
    · rw [hm hc] at hf; exact absurd hf (by simp)
    · rw [hm hc] at hf; exact absurd hf (by simp)
  · intro hmiss
    obtain ⟨hnone, hsome⟩ := loopBody_miss m st request sched hmiss
    refine ⟨hnone, ?_⟩
    intro r hs
    obtain ⟨it, hb⟩ := hsome r hs
    obtain ⟨_, _, hev⟩ := scan_uncancelled_nonnil m request 0 sched st.nextAddr r hs
    have hfin := finEvents_progress r.events hev
    refine ⟨it, hb, ?_⟩
    rcases loopBody_cases m st request sched it hb with
      ⟨c, hc, hf, rfl⟩ | ⟨r2, _, hs2, hcan, rfl⟩ | ⟨r2, _, hs2, hcan, rfl⟩
    · rw [hmiss hc] at hf; exact absurd hf (by simp)
    · rw [hs] at hs2
      simp only [Option.some.injEq] at hs2
      subst hs2
      exact ⟨rfl, hcan.symm, rfl, hfin, by simp [hcan]⟩
    · rw [hs] at hs2
      simp only [Option.some.injEq] at hs2
      subst hs2
      exact ⟨rfl, hcan.symm, rfl, hfin, by simp [hcan]⟩
  · intro it h
    obtain ⟨k1, k2, k3, k4, k5⟩ := loopBody_fin_fields m st request sched it hst h
    refine ⟨k1, k2, k3, ?_, ?_, k4, k5⟩
    · rcases loopBody_cases m st request sched it h with
        ⟨c, hc, hf, rfl⟩ | ⟨r, hm, _, _, rfl⟩ | ⟨r, hm, _, _, rfl⟩
      · simp only [true_iff]
        exact ⟨hc, c, hf⟩
      · simp only [reduceCtorEq, false_iff, not_and, not_exists]
        intro hc cached hf
        rw [hm hc] at hf
        exact absurd hf (by simp)
      · simp only [reduceCtorEq, false_iff, not_and, not_exists]
        intro hc cached hf
        rw [hm hc] at hf
        exact absurd hf (by simp)
    · intro r hr
      rcases loopBody_cases m st request sched it h with
        ⟨c, hc, hf, rfl⟩ | ⟨r2, _, hs2, _, rfl⟩ | ⟨r2, _, hs2, _, rfl⟩
      · simp at hr
      · simp only [Option.some.injEq] at hr
        rw [← hr]; exact hs2
      · simp only [Option.some.injEq] at hr
        rw [← hr]; exact hs2

/-! ## Concrete runs -/

/-- Counterexample to claim C1: two chunks, the empty pattern, a reqReset pending at every
check of the coordinator; scan returns a merger with cancelled = false and the iteration
sets EvtSearchFin. -/
theorem scan_reset_empty_pattern_counterexample :
    exEmptyRequest.chunks.length = 2 ∧
    exSchedReset.arrivals.map Arrival.resetPending = [true, true] ∧
    exMatcher.scan exEmptyRequest 0 exSchedReset 1 =
      some { merger := some { addr := 1,
                              obj := NewMerger [[exItem 0], [exItem 1]] false },
             cancelled := false, events := [] } ∧
    Option.map Iteration.events
        (exMatcher.loopBody LoopState.init exEmptyRequest exSchedReset) =
      some [(EvtSearchFin,
        Payload.merger (some { addr := 1, obj := NewMerger [[exItem 0], [exItem 1]] false }))] := by
  refine ⟨by decide, by decide, by decide, by decide⟩

/-- An instance of the amended claim C1: two chunks, a non-empty pattern, a reqReset pending
when the first count is handled. -/
theorem scan_reset_cancels_witness :
    ∃ evs, exMatcher.scan exRequest 0 exSchedReset 1 =
      some { merger := none, cancelled := true, events := evs } :=
  (scan_reset_cancels exMatcher exRequest exSchedReset 1 0
    { chunk := 0, reqBox := exPending, late := false } rfl (by decide) rfl (by decide)).1

/-- Counterexample to claim C2: Reset with cancel = true, then Reset with cancel = false and
two chunks; the mapping is visited in the order of the kinds, `reqRetry` then `reqReset`,
and the handler keeps the request of the first call (one chunk), not of the last. -/
theorem loop_keeps_last_counterexample :
    exDrained.Perm (exMatcher.resets exResetCalls).events ∧
    Option.map MatchRequest.chunks (keepRequest exDrained) = some [[exItem 0]] ∧
    Option.map ResetCall.chunks exResetCalls.getLast? = some [[exItem 0], [exItem 1]] := by
  refine ⟨?_, by decide, by decide⟩
  exact List.Perm.swap _ _ _

/-- An instance of the amended claim C2: two cancelling calls and then a call that does
not cancel; the mapping is visited `reqRetry` then `reqReset`, and the handler keeps the
request of the second call, the one most recently stored under `reqReset`. -/
theorem loop_keeps_last_visited_witness :
    exDrained3.Perm (exMatcher.resets exResetCalls3).events ∧
    keepRequest exDrained3 = exMatcher.lastStored exResetCalls3 reqReset ∧
    Option.map MatchRequest.chunks (exMatcher.lastStored exResetCalls3 reqReset) =
      some exChunks :=
  ⟨List.Perm.swap _ _ _,
   (loop_keeps_last_visited exMatcher
      [{ chunks := [[exItem 0]], patternRunes := ['a'], cancel := true },
       { chunks := exChunks, patternRunes := ['a'], cancel := true }]
      { chunks := exChunks5, patternRunes := ['a'], cancel := false }
      exDrained3 (List.Perm.swap _ _ _)).2.1 reqReset (by decide),
   by decide⟩

/-- An instance of claim C3: Loop woken twice with the same request. -/
theorem loop_cache_hit_witness :
    (exRun.getD 1 exNoIteration).scanned = none ∧
    (exRun.getD 1 exNoIteration).cancelled = false ∧
    (exRun.getD 1 exNoIteration).merger = (exRun.getD 0 exNoIteration).merger ∧
    (exRun.getD 1 exNoIteration).events =
      [(EvtSearchFin, Payload.merger (exRun.getD 0 exNoIteration).merger)] ∧
    finEvents (exRun.getD 0 exNoIteration).events =
      [(EvtSearchFin, Payload.merger (exRun.getD 0 exNoIteration).merger)] :=
  loop_cache_hit exMatcher 2 exWakes LoopState.init exRun rfl (by decide) 0 1
    (exRun.getD 0 exNoIteration) (exRun.getD 1 exNoIteration) (by decide) rfl rfl rfl rfl

/-- An instance of claim C4: the state after Loop was woken twice with the same request. -/
theorem loop_cache_invariant_witness :
    CacheJustified exMatcher exRun (lastState LoopState.init exRun) :=
  (loop_cache_invariant exMatcher exWakes exRun rfl).1

/-- An instance of claim C5, scenario S6 of the spec: 1,000 items, the empty pattern,
limit 10; scan returns cancelled with no merger. -/
theorem scan_limit_witness :
    ∃ r, exMatcher.scan exRequest1000 10 exSched1000 1 = some r ∧
      r.merger = none ∧ r.cancelled = true := by
  obtain ⟨r, h1, h2, _⟩ := scan_limit exMatcher exRequest1000 10 exSched1000 1
    (by decide) (by decide) (by decide)
  exact ⟨r, h1, (h2 (by decide)).mpr (by decide)⟩

/-- An instance of claim C6: the first iteration of Loop misses the cache, scan returns
uncancelled, and the iteration sets EvtSearchFin with the merger scan returned. -/
theorem loopBody_searchFin_witness :
    ∃ it, exMatcher.loopBody LoopState.init exRequest exSched = some it ∧
      it.scanned = some exScannedFirst ∧ it.cancelled = false ∧
      it.events = exScannedFirst.events ++
        [(EvtSearchFin, Payload.merger exScannedFirst.merger)] := by
  obtain ⟨it, h1, h2, h3, _, _, h6⟩ :=
    ((loopBody_searchFin exMatcher LoopState.init exRequest exSched ⟨[], [], rfl, rfl⟩).2.1
      (fun _ => rfl)).2 exScannedFirst (by decide)
  have hc : exScannedFirst.cancelled = false := by decide
  refine ⟨it, h1, h2, by rw [h3, hc], ?_⟩
  rw [h6, hc]
  simp

/-- An instance of claim C7: two chunks, the second worker finishing first. -/
theorem scan_empty_pattern_witness :
    ∃ r mg, exMatcher.scan exEmptyRequest 0 exSched 1 = some r ∧ r.cancelled = false ∧
      r.merger = some mg ∧ mg.obj.sorted = false ∧
      mg.obj.lists.flatten = exEmptyRequest.chunks.flatten ∧
      mg.obj.Length = CountItems exEmptyRequest.chunks := by
  obtain ⟨r, mg, h1, h2, h3, h4, h5, h6, _⟩ :=
    scan_empty_pattern exMatcher exEmptyRequest exSched 1 (by decide) rfl
      (fun _ => ⟨by decide, by decide⟩)
  exact ⟨r, mg, h1, h2, h3, h4, h5, h6⟩

/-- Counterexample to claim C8: two chunks and three partitions give one slice, where
min(3, 2) is 2. -/
theorem sliceChunks_min_counterexample :
    exChunks.length = 2 ∧ min 3 exChunks.length = 2 ∧
    (Matcher.sliceChunks { patternBuilder := exMatcher.patternBuilder, sort := true,
                           partitions := 3 } exChunks).length = 1 := by
  decide

/-- An instance of the amended claim C8: five chunks and two partitions give two slices. -/
theorem sliceChunks_length_witness :
    (exMatcher.sliceChunks exChunks5).length = 2 := by
  have h := sliceChunks_length exMatcher exChunks5 (by decide)
  rw [h]
  decide

/-- An instance of claim C9: five chunks and two partitions. -/
theorem sliceChunks_contiguous_witness :
    (exMatcher.sliceChunks exChunks5).flatten = exChunks5 :=
  (sliceChunks_contiguous exMatcher exChunks5 (by decide)).1

/-- An instance of claim C10: five chunks in two partitions, a non-empty pattern, sorting on. -/
theorem scan_ranking_witness :
    ∃ mg, exScanned.merger = some mg ∧ mg.obj.sorted = true ∧
      mg.obj.lists.length = (exMatcher.sliceChunks exRequest5.chunks).length := by
  obtain ⟨mg, h1, h2, h3, _⟩ := scan_ranking exMatcher exRequest5 0 exSched5 1 exScanned
    (by decide) (by decide) (by decide) (by decide)
  exact ⟨mg, h1, h2, h3⟩

end Fzf
